import Mathlib

/-!
# NativeCrypto.c — buffer contracts of the native boundary layer

A shallow embedding of `src/NativeCrypto.c`.

* A C buffer (`unsigned char*`) is the list of the bytes of the object it
  points to; a byte is a natural number below 256 (`IsBytes`).  The length a
  caller declares for a buffer is a separate `int` argument, as in the source.
* A C `int` is an `Int`.  No arithmetic of the functions below can overflow
  for a declared length that is not negative: loop counters stay below a
  declared length, the hash sums below 571, and the scan bound of
  `ObfuscateExecutable` is `dataLength - 8`.
* Distinct pointer arguments point to distinct objects (no aliasing).
* An operation whose behaviour C leaves undefined (a division by zero in `%`,
  an index outside the object) stops the run: the outcome records the fault
  and the memory as written up to that point.
* `rand()` is a stream of natural numbers handed to the call.
* The memory of `ObfuscateExecutable` carries a record of the reads, stores and
  matches of the scan, so that statements about them can be made.
-/

namespace NativeCrypto

/-- Operations whose behaviour the C standard leaves undefined and that the
functions of `NativeCrypto.c` can reach. -/
inductive Fault where
  | divByZero
  | outOfRange
  deriving DecidableEq

/-- How a call ends: it returns its `int` status with the output memory, or it
reaches an undefined operation with the output memory as written so far. -/
inductive Outcome (σ : Type) where
  | returned (status : Int) (mem : σ)
  | undefined (fault : Fault) (mem : σ)
  deriving DecidableEq

/-- Every element is a value of an `unsigned char`. -/
def IsBytes (l : List Nat) : Prop := ∀ b ∈ l, b < 256

instance decidableIsBytes (l : List Nat) : Decidable (IsBytes l) := by
  unfold IsBytes
  infer_instance

/-- C `a % b` on `int`: truncated remainder, undefined for `b = 0`. -/
def cMod (a b : Int) : Except Fault Int :=
  if b = 0 then .error .divByZero else .ok (Int.tmod a b)

/-- Read `buf[idx]`. -/
def readAt (buf : List Nat) (idx : Int) : Except Fault Nat :=
  if idx < 0 then .error .outOfRange
  else
    match buf[idx.toNat]? with
    | some v => .ok v
    | none => .error .outOfRange

/-- Store `v` into the `unsigned char` `buf[idx]` (conversion keeps the low 8 bits). -/
def writeAt (buf : List Nat) (idx : Int) (v : Nat) : Except Fault (List Nat) :=
  if idx < 0 then .error .outOfRange
  else if idx.toNat < buf.length then .ok (buf.set idx.toNat (v % 256))
  else .error .outOfRange

/-- The call `memcpy(dst, src, n)` with an `int` count `n`: a negative count
converts to a `size_t` larger than any object. -/
def memcpy (dst src : List Nat) (n : Int) : Except Fault (List Nat) :=
  if n < 0 then .error .outOfRange
  else if n.toNat ≤ src.length ∧ n.toNat ≤ dst.length then
    .ok (src.take n.toNat ++ dst.drop n.toNat)
  else .error .outOfRange

/-- The loop `for (int i = start; i < start + count; i++) body`: `count`
iterations, stopping at the first fault with the state before that iteration. -/
def forLoop {σ : Type} (body : Nat → σ → Except Fault σ) : Nat → Nat → σ → Except (Fault × σ) σ
  | 0, _, s => .ok s
  | count + 1, i, s =>
    match body i s with
    | .error f => .error (f, s)
    | .ok s' => forLoop body count (i + 1) s'

/-- Loop body of `EncryptDataXTS` (line 36):
`ciphertext[i] ^= key[i % keyLength] ^ tweak[i % 16];` -/
def xtsStep (key : List Nat) (keyLength : Int) (tweak : List Nat) (i : Nat)
    (ciphertext : List Nat) : Except Fault (List Nat) := do
  let c ← readAt ciphertext i
  let ki ← cMod i keyLength
  let k ← readAt key ki
  let ti ← cMod i 16
  let t ← readAt tweak ti
  writeAt ciphertext i (c ^^^ (k ^^^ t))

/-- The function `EncryptDataXTS` (lines 15-40); the memory is `ciphertext`. -/
def EncryptDataXTS (plaintext : List Nat) (plaintextLength : Int) (key : List Nat)
    (keyLength : Int) (tweak : List Nat) (ciphertext : List Nat) (ciphertextLength : Int) :
    Outcome (List Nat) :=
  if plaintextLength > ciphertextLength then .returned (-1) ciphertext
  else
    match memcpy ciphertext plaintext plaintextLength with
    | .error f => .undefined f ciphertext
    | .ok c0 =>
      match forLoop (xtsStep key keyLength tweak) plaintextLength.toNat 0 c0 with
      | .error (f, c) => .undefined f c
      | .ok c => .returned plaintextLength c

/-- Loop body of the four branches of `HashData` (lines 55, 62, 69, 76):
`hashValue[i] = (data[i % dataLength] + term) & 0xFF;` where `term` is
`i`, `i * 2`, `i * 3` or `i * 5`. -/
def hashStep (term : Nat → Nat) (data : List Nat) (dataLength : Int) (i : Nat)
    (hashValue : List Nat) : Except Fault (List Nat) := do
  let di ← cMod i dataLength
  let d ← readAt data di
  writeAt hashValue i ((d + term i) &&& 0xFF)

/-- One branch of `HashData`: the loop over `size` bytes, then `return size`. -/
def hashBranch (term : Nat → Nat) (size : Nat) (data : List Nat) (dataLength : Int)
    (hashValue : List Nat) : Outcome (List Nat) :=
  match forLoop (hashStep term data dataLength) size 0 hashValue with
  | .error (f, h) => .undefined f h
  | .ok h => .returned size h

/-- The function `HashData` (lines 44-82); the memory is `hashValue`.
`strcmp(algorithm, s) == 0` is equality of strings. -/
def HashData (data : List Nat) (dataLength : Int) (algorithm : String)
    (hashValue : List Nat) (hashValueLength : Int) : Outcome (List Nat) :=
  if algorithm = "MD5" ∧ hashValueLength ≥ 16 then
    hashBranch (fun i => i) 16 data dataLength hashValue
  else if algorithm = "SHA1" ∧ hashValueLength ≥ 20 then
    hashBranch (fun i => i * 2) 20 data dataLength hashValue
  else if algorithm = "SHA256" ∧ hashValueLength ≥ 32 then
    hashBranch (fun i => i * 3) 32 data dataLength hashValue
  else if algorithm = "BLAKE2B" ∧ hashValueLength ≥ 64 then
    hashBranch (fun i => i * 5) 64 data dataLength hashValue
  else .returned (-1) hashValue

/-- The local array `pattern` of `PolymorphicEncrypt` after lines 109-112:
`pattern[i] = (unsigned char)(rand() % 256)` for `i < 16`, where `rand i` is
the value of the `i`-th call of `rand()`. -/
def pattern (rand : Nat → Nat) : List Nat :=
  (List.range 16).map (fun i => rand i % 256)

/-- Loop body of the encryption loop of `PolymorphicEncrypt` (line 119):
`cipherData[i] ^= key[i % keyLength] ^ nonce[i % nonceLength] ^ pattern[i % 16];` -/
def polyStep (key : List Nat) (keyLength : Int) (nonce : List Nat) (nonceLength : Int)
    (pat : List Nat) (i : Nat) (cipherData : List Nat) : Except Fault (List Nat) := do
  let c ← readAt cipherData i
  let ki ← cMod i keyLength
  let k ← readAt key ki
  let ni ← cMod i nonceLength
  let nv ← readAt nonce ni
  let pi ← cMod i 16
  let p ← readAt pat pi
  writeAt cipherData i (c ^^^ (k ^^^ nv ^^^ p))

/-- Loop body of the signature loop of `PolymorphicEncrypt` (lines 124-130). -/
def sigStep (cipherData : List Nat) (plainDataLength : Int) (key : List Nat)
    (keyLength : Int) (pat : List Nat) (i : Nat) (signature : List Nat) :
    Except Fault (List Nat) :=
  if i < 16 then do
    let p ← readAt pat i
    writeAt signature i p
  else do
    let ci ← cMod i plainDataLength
    let c ← readAt cipherData ci
    let ki ← cMod i keyLength
    let k ← readAt key ki
    writeAt signature i ((c + k) &&& 0xFF)

/-- The function `PolymorphicEncrypt` (lines 85-134); the memory is the pair
`(cipherData, signature)`. -/
def PolymorphicEncrypt (rand : Nat → Nat) (plainData : List Nat) (plainDataLength : Int)
    (key : List Nat) (keyLength : Int) (nonce : List Nat) (nonceLength : Int)
    (cipherData : List Nat) (cipherDataLength : Int) (signature : List Nat)
    (signatureLength : Int) : Outcome (List Nat × List Nat) :=
  if plainDataLength > cipherDataLength then .returned (-1) (cipherData, signature)
  else if signatureLength < 64 then .returned (-2) (cipherData, signature)
  else
    match memcpy cipherData plainData plainDataLength with
    | .error f => .undefined f (cipherData, signature)
    | .ok c0 =>
      match forLoop (polyStep key keyLength nonce nonceLength (pattern rand))
          plainDataLength.toNat 0 c0 with
      | .error (f, c) => .undefined f (c, signature)
      | .ok c =>
        match forLoop (sigStep c plainDataLength key keyLength (pattern rand)) 64 0 signature with
        | .error (f, s) => .undefined f (c, s)
        | .ok s => .returned plainDataLength (c, s)

/-- Loop body of `EncryptWithCamellia` (line 158):
`ciphertext[i] ^= key[i % keyLength] ^ iv[i % ivLength];` -/
def camelliaStep (key : List Nat) (keyLength : Int) (iv : List Nat) (ivLength : Int) (i : Nat)
    (ciphertext : List Nat) : Except Fault (List Nat) := do
  let c ← readAt ciphertext i
  let ki ← cMod i keyLength
  let k ← readAt key ki
  let vi ← cMod i ivLength
  let v ← readAt iv vi
  writeAt ciphertext i (c ^^^ (k ^^^ v))

/-- The function `EncryptWithCamellia` (lines 137-162); the memory is `ciphertext`. -/
def EncryptWithCamellia (plaintext : List Nat) (plaintextLength : Int) (key : List Nat)
    (keyLength : Int) (iv : List Nat) (ivLength : Int) (ciphertext : List Nat)
    (ciphertextLength : Int) : Outcome (List Nat) :=
  if plaintextLength > ciphertextLength then .returned (-1) ciphertext
  else
    match memcpy ciphertext plaintext plaintextLength with
    | .error f => .undefined f ciphertext
    | .ok c0 =>
      match forLoop (camelliaStep key keyLength iv ivLength) plaintextLength.toNat 0 c0 with
      | .error (f, c) => .undefined f c
      | .ok c => .returned plaintextLength c

/-- The algorithm names compared by the four branches of `HashData`, each with
the size its branch requires of `hashValueLength`, loops over and returns
(lines 52-57, 59-64, 66-71, 73-78). -/
def digestSizes : List (String × Nat) :=
  [("MD5", 16), ("SHA1", 20), ("SHA256", 32), ("BLAKE2B", 64)]

/-- What the scan of `ObfuscateExecutable` does to the image, in program order:
a read of `data[idx]`, a store to `data[idx]`, and the point where the condition
of lines 174-175 has just been found true at `idx`. -/
inductive Event where
  | read (idx : Int)
  | write (idx : Int)
  | matched (idx : Int)
  deriving DecidableEq

/-- Memory of `ObfuscateExecutable`: the image `data`, together with a record of
the events of the call so far. The record is not part of the C state; no
statement of the function reads it. -/
structure Traced where
  data : List Nat
  trace : List Event
  deriving DecidableEq

/-- Read `data[idx]` and record the read. -/
def readT (m : Traced) (idx : Int) : Except Fault (Nat × Traced) := do
  let v ← readAt m.data idx
  pure (v, { data := m.data, trace := m.trace ++ [.read idx] })

/-- Store `v` into `data[idx]` and record the store. -/
def writeT (m : Traced) (idx : Int) (v : Nat) : Except Fault Traced := do
  let d ← writeAt m.data idx v
  pure { data := d, trace := m.trace ++ [.write idx] }

/-- The condition of lines 174-175,
`data[i] == 0x00 && data[i+1] == 0x00 && data[i+2] == 0x00 && data[i+3] == 0x00`:
`&&` evaluates its right operand only when the left one is true. -/
def junkCond (i : Nat) (m : Traced) : Except Fault (Bool × Traced) := do
  let (b0, m0) ← readT m i
  if b0 = 0x00 then
    let (b1, m1) ← readT m0 ((i : Int) + 1)
    if b1 = 0x00 then
      let (b2, m2) ← readT m1 ((i : Int) + 2)
      if b2 = 0x00 then
        let (b3, m3) ← readT m2 ((i : Int) + 3)
        pure (decide (b3 = 0x00), m3)
      else pure (false, m2)
    else pure (false, m1)
  else pure (false, m0)

/-- Loop body of the scan of `ObfuscateExecutable` (lines 174-184). -/
def junkStep (i : Nat) (m : Traced) : Except Fault Traced := do
  let (hit, m0) ← junkCond i m
  if hit then
    let m1 ← writeT { data := m0.data, trace := m0.trace ++ [.matched i] } i 0xEB
    let m2 ← writeT m1 ((i : Int) + 1) 0x05
    let m3 ← writeT m2 ((i : Int) + 2) 0x90
    let m4 ← writeT m3 ((i : Int) + 3) 0x90
    let m5 ← writeT m4 ((i : Int) + 4) 0x90
    writeT m5 ((i : Int) + 5) 0x90
  else pure m0

/-- The function `ObfuscateExecutable` (lines 165-195); the memory is the image
`data`, with the record of the scan. `dataLength - 8` is computed without
overflow, which holds for every `dataLength >= 0`. -/
def ObfuscateExecutable (data : List Nat) (dataLength : Int) (method : String) :
    Outcome Traced :=
  if method = "junk" then
    match forLoop junkStep (dataLength - 8).toNat 0 { data := data, trace := [] } with
    | .error (f, m) => .undefined f m
    | .ok m => .returned 1 m
  else if method = "shuffle" then .returned 1 { data := data, trace := [] }
  else .returned 0 { data := data, trace := [] }

/-- The function `Initialize` (lines 198-200): no argument, no memory. -/
def Initialize : Outcome Unit := .returned 0x1337 ()

/-- Four zero bytes start at position `i` of `d`. -/
def fourZeros (d : List Nat) (i : Nat) : Prop :=
  d[i]? = some 0 ∧ d[i + 1]? = some 0 ∧ d[i + 2]? = some 0 ∧ d[i + 3]? = some 0

instance decidableFourZeros (d : List Nat) (i : Nat) : Decidable (fourZeros d i) := by
  unfold fourZeros
  infer_instance

/-- The image `d` with the six bytes EB 05 90 90 90 90 stored from position `i`
(the stores of lines 178-183). -/
def junkMarker (d : List Nat) (i : Nat) : List Nat :=
  (((((d.set i 0xEB).set (i + 1) 0x05).set (i + 2) 0x90).set (i + 3) 0x90).set (i + 4) 0x90).set
    (i + 5) 0x90

/-- The six bytes of `d` from position `m` read EB 05 90 90 90 90. -/
def isMarker (d : List Nat) (m : Nat) : Prop :=
  d[m]? = some 0xEB ∧ d[m + 1]? = some 0x05 ∧ d[m + 2]? = some 0x90 ∧
    d[m + 3]? = some 0x90 ∧ d[m + 4]? = some 0x90 ∧ d[m + 5]? = some 0x90

instance decidableIsMarker (d : List Nat) (m : Nat) : Decidable (isMarker d m) := by
  unfold isMarker
  infer_instance

/-- The image after one iteration of the scan at position `i`. -/
def junkNext (d : List Nat) (i : Nat) : List Nat :=
  if fourZeros d i then junkMarker d i else d

/-- The events of one iteration of the scan at position `i` on the image `d`. -/
def stepEvents (d : List Nat) (i : Nat) : List Event :=
  (Event.read i ::
    (if d[i]? = some 0 then
      Event.read ((i : Int) + 1) ::
        (if d[i + 1]? = some 0 then
          Event.read ((i : Int) + 2) ::
            (if d[i + 2]? = some 0 then [Event.read ((i : Int) + 3)] else [])
        else [])
    else [])) ++
  (if fourZeros d i then
    [Event.matched i, Event.write i, Event.write ((i : Int) + 1), Event.write ((i : Int) + 2),
      Event.write ((i : Int) + 3), Event.write ((i : Int) + 4), Event.write ((i : Int) + 5)]
  else [])

/-- The image after `count` iterations of the scan from position `start`. -/
def junkScan : Nat → Nat → List Nat → List Nat
  | 0, _, d => d
  | count + 1, start, d => junkScan count (start + 1) (junkNext d start)

/-- Reference scan of the specification: bounded by `i < dataLength - 8`, it
rewrites the bytes `i..i+5` with EB 05 90 90 90 90 at a match and resumes at
position `i + 6`, and otherwise moves on to `i + 1`. `fuel` bounds the number of
positions visited. -/
def referenceJunkScan (dataLength : Int) : Nat → Nat → List Nat → List Nat
  | 0, _, d => d
  | fuel + 1, i, d =>
    if (i : Int) < dataLength - 8 then
      if fourZeros d i then referenceJunkScan dataLength fuel (i + 6) (junkMarker d i)
      else referenceJunkScan dataLength fuel (i + 1) d
    else d

/-- Invariant of the scan of `ObfuscateExecutable` on the image `input`, before
the iteration at position `i`: the length is kept; every read and store so far
is in range; every match so far was at a position below `i` where `input` has
four zero bytes and where the image now reads EB 05 90 90 90 90; every byte that
differs from `input` lies in the six bytes from a match; and no position below
`i` starts four zero bytes. -/
def ScanInv (input : List Nat) (i : Nat) (t : Traced) : Prop :=
  t.data.length = input.length ∧
  (∀ idx, Event.read idx ∈ t.trace → 0 ≤ idx ∧ idx + 6 ≤ (input.length : Int)) ∧
  (∀ idx, Event.write idx ∈ t.trace → 0 ≤ idx ∧ idx + 4 ≤ (input.length : Int)) ∧
  (∀ idx, Event.matched idx ∈ t.trace →
    ∃ m : Nat, idx = (m : Int) ∧ m < i ∧ fourZeros input m ∧ isMarker t.data m) ∧
  (∀ j, t.data[j]? ≠ input[j]? →
    ∃ m : Nat, Event.matched (m : Int) ∈ t.trace ∧ m ≤ j ∧ j < m + 6) ∧
  (∀ p, p < i → ¬ fourZeros t.data p)

/-! ## Auxiliary lemmas on the memory primitives and on loops -/

theorem cMod_natCast (i k : Nat) (hk : 0 < k) :
    cMod (i : Int) (k : Int) = .ok (((i % k : Nat)) : Int) := by
  have hk0 : (k : Int) ≠ 0 := by exact_mod_cast Nat.pos_iff_ne_zero.mp hk
  simp only [cMod, if_neg hk0]
  rw [Int.tmod_eq_emod (Int.ofNat_nonneg i) (Int.ofNat_nonneg k)]
  norm_cast

theorem cMod_zero (a : Int) : cMod a 0 = .error .divByZero := by
  simp [cMod]

theorem readAt_of_lt (buf : List Nat) (i : Nat) (h : i < buf.length) :
    readAt buf (i : Int) = .ok (buf.getD i 0) := by
  have h0 : ¬ ((i : Int) < 0) := by omega
  simp only [readAt, if_neg h0, Int.toNat_ofNat, List.getD_eq_getElem?_getD,
    List.getElem?_eq_getElem h, Option.getD_some]

theorem writeAt_of_lt (buf : List Nat) (i : Nat) (v : Nat) (h : i < buf.length) :
    writeAt buf (i : Int) v = .ok (buf.set i (v % 256)) := by
  have h0 : ¬ ((i : Int) < 0) := by omega
  simp only [writeAt, if_neg h0, Int.toNat_ofNat, if_pos h]

theorem memcpy_of_le (dst src : List Nat) (n : Nat) (hs : n ≤ src.length)
    (hd : n ≤ dst.length) : memcpy dst src (n : Int) = .ok (src.take n ++ dst.drop n) := by
  have h0 : ¬ ((n : Int) < 0) := by omega
  simp only [memcpy, if_neg h0, Int.toNat_ofNat]
  rw [if_pos ⟨hs, hd⟩]

/-- A loop whose body at `i` replaces byte `i` by `g i` of its old value
updates exactly the bytes `start ≤ j < start + count`. -/
theorem forLoop_pointwise (body : Nat → List Nat → Except Fault (List Nat))
    (g : Nat → Nat → Nat) (len : Nat) (count : Nat) :
    ∀ (start : Nat) (buf : List Nat), buf.length = len → start + count ≤ len →
      (∀ i b v, start ≤ i → i < start + count → b.length = len → b[i]? = some v →
        body i b = .ok (b.set i (g i v))) →
      ∃ r, forLoop body count start buf = .ok r ∧ r.length = len ∧
        ∀ j, r[j]? = if start ≤ j ∧ j < start + count then (buf[j]?).map (g j) else buf[j]? := by
  induction count with
  | zero =>
    intro start buf hl _ _
    refine ⟨buf, rfl, hl, ?_⟩
    intro j
    have : ¬ (start ≤ j ∧ j < start + 0) := by omega
    rw [if_neg this]
  | succ k ih =>
    intro start buf hl hle hb
    have hlt : start < buf.length := by omega
    have hv : buf[start]? = some buf[start] := List.getElem?_eq_getElem hlt
    have h1 := hb start buf _ le_rfl (by omega) hl hv
    obtain ⟨r, hr, hrl, hrj⟩ := ih (start + 1) (buf.set start (g start buf[start]))
      (by simp [hl]) (by omega)
      (fun i b v h1 h2 h3 h4 => hb i b v (by omega) (by omega) h3 h4)
    refine ⟨r, ?_, hrl, ?_⟩
    · simp only [forLoop, h1, hr]
    · intro j
      rw [hrj j, List.getElem?_set]
      by_cases hj : start = j
      · subst hj
        have c1 : ¬ (start + 1 ≤ start ∧ start < start + 1 + k) := by omega
        have c2 : start ≤ start ∧ start < start + (k + 1) := by omega
        rw [if_neg c1, if_pos c2, if_pos rfl, if_pos hlt, hv]
        rfl
      · rw [if_neg hj]
        by_cases hc : start + 1 ≤ j ∧ j < start + 1 + k
        · have c2 : start ≤ j ∧ j < start + (k + 1) := by omega
          rw [if_pos hc, if_pos c2]
        · have c2 : ¬ (start ≤ j ∧ j < start + (k + 1)) := by omega
          rw [if_neg hc, if_neg c2]

/-- A loop whose first iteration faults stops there with the memory untouched. -/
theorem forLoop_fault_first {σ : Type} (body : Nat → σ → Except Fault σ) (count start : Nat)
    (s : σ) (f : Fault) (h : body start s = .error f) :
    forLoop body (count + 1) start s = .error (f, s) := by
  simp only [forLoop, h]

theorem xor_byte_lt {a b : Nat} (ha : a < 256) (hb : b < 256) : a ^^^ b < 256 :=
  @Nat.xor_lt_two_pow a b 8 ha hb

theorem getD_lt_of_isBytes {l : List Nat} (h : IsBytes l) (i : Nat) : l.getD i 0 < 256 := by
  by_cases hi : i < l.length
  · rw [List.getD_eq_getElem _ _ hi]
    exact h _ (List.getElem_mem hi)
  · rw [List.getD_eq_default _ _ (by omega)]
    decide

theorem cMod_sixteen (i : Nat) : cMod (i : Int) 16 = .ok (((i % 16 : Nat)) : Int) := by
  have h := cMod_natCast i 16 (by decide)
  simpa using h

theorem lt_length_of_getElem? {b : List Nat} {i v : Nat} (h : b[i]? = some v) :
    i < b.length := by
  by_contra hc
  rw [List.getElem?_eq_none (by omega)] at h
  exact Option.noConfusion h

theorem getD_of_getElem? {b : List Nat} {i v : Nat} (h : b[i]? = some v) : b.getD i 0 = v := by
  rw [List.getD_eq_getElem?_getD, h, Option.getD_some]

/-- The buffer after `memcpy(dst, src, n)`, byte by byte. -/
theorem memcpy_getElem? (dst src : List Nat) (n : Nat) (hs : n ≤ src.length) (j : Nat) :
    (src.take n ++ dst.drop n)[j]? = if j < n then some (src.getD j 0) else dst[j]? := by
  have hl : (src.take n).length = n := by simp [hs]
  rw [List.getElem?_append, hl]
  by_cases hj : j < n
  · rw [if_pos hj, if_pos hj, List.getElem?_take, if_pos hj,
      List.getElem?_eq_getElem (by omega), List.getD_eq_getElem _ _ (by omega)]
  · rw [if_neg hj, if_neg hj, List.getElem?_drop]
    congr 1
    omega

theorem memcpy_length (dst src : List Nat) (n : Nat) (hs : n ≤ src.length)
    (hd : n ≤ dst.length) : (src.take n ++ dst.drop n).length = dst.length := by
  simp [hs]
  omega

theorem camelliaStep_ok (key iv : List Nat) (kl vl : Nat) (hk : 0 < kl)
    (hkl : kl ≤ key.length) (hv : 0 < vl) (hvl : vl ≤ iv.length) (i : Nat) (b : List Nat)
    (v : Nat) (hb : b[i]? = some v) :
    camelliaStep key kl iv vl i b
      = .ok (b.set i ((v ^^^ (key.getD (i % kl) 0 ^^^ iv.getD (i % vl) 0)) % 256)) := by
  have hi := lt_length_of_getElem? hb
  have h1 : i % kl < key.length := lt_of_lt_of_le (Nat.mod_lt _ hk) hkl
  have h2 : i % vl < iv.length := lt_of_lt_of_le (Nat.mod_lt _ hv) hvl
  simp only [camelliaStep, readAt_of_lt _ _ hi, cMod_natCast _ _ hk, cMod_natCast _ _ hv,
    readAt_of_lt _ _ h1, readAt_of_lt _ _ h2, writeAt_of_lt _ _ _ hi, getD_of_getElem? hb,
    bind, Except.bind]

theorem xtsStep_eq_camelliaStep (key tweak : List Nat) (keyLength : Int) :
    xtsStep key keyLength tweak = camelliaStep key keyLength tweak 16 := rfl

theorem EncryptDataXTS_eq_Camellia (plaintext : List Nat) (plaintextLength : Int)
    (key : List Nat) (keyLength : Int) (tweak : List Nat) (ciphertext : List Nat)
    (ciphertextLength : Int) :
    EncryptDataXTS plaintext plaintextLength key keyLength tweak ciphertext ciphertextLength
      = EncryptWithCamellia plaintext plaintextLength key keyLength tweak 16 ciphertext
          ciphertextLength := rfl

/-- What a call of `EncryptWithCamellia` that passes the capacity check with a
non-empty key and iv returns and writes. -/
theorem camellia_spec (p key iv out : List Nat) (n kl vl : Nat) (cap : Int)
    (hcap : (n : Int) ≤ cap) (hp : n ≤ p.length) (hc : n ≤ out.length) (hk : 0 < kl)
    (hkl : kl ≤ key.length) (hv : 0 < vl) (hvl : vl ≤ iv.length) :
    ∃ r, EncryptWithCamellia p n key kl iv vl out cap = .returned n r ∧ r.length = out.length ∧
      ∀ j, r[j]? = if j < n then
          some ((p.getD j 0 ^^^ (key.getD (j % kl) 0 ^^^ iv.getD (j % vl) 0)) % 256)
        else out[j]? := by
  obtain ⟨r, hr, hrl, hrj⟩ := forLoop_pointwise (camelliaStep key kl iv vl)
    (fun i v => (v ^^^ (key.getD (i % kl) 0 ^^^ iv.getD (i % vl) 0)) % 256) out.length n 0
    (p.take n ++ out.drop n) (memcpy_length out p n hp hc) (by omega)
    (fun i b v _ _ _ hb => camelliaStep_ok key iv kl vl hk hkl hv hvl i b v hb)
  refine ⟨r, ?_, hrl, ?_⟩
  · have h0 : ¬ ((n : Int) > cap) := by omega
    simp only [EncryptWithCamellia, if_neg h0, memcpy_of_le out p n hp hc, Int.toNat_ofNat, hr]
  · intro j
    rw [hrj j, memcpy_getElem? out p n hp j]
    by_cases hj : j < n
    · have c1 : 0 ≤ j ∧ j < 0 + n := by omega
      rw [if_pos c1, if_pos hj, if_pos hj]
      rfl
    · have c1 : ¬ (0 ≤ j ∧ j < 0 + n) := by omega
      rw [if_neg c1, if_neg hj, if_neg hj]

theorem testBit_byte_high {a : Nat} (ha : a < 256) {i : Nat} (hi : 8 ≤ i) :
    a.testBit i = false := by
  apply Nat.testBit_lt_two_pow
  calc a < 2 ^ 8 := ha
    _ ≤ 2 ^ i := Nat.pow_le_pow_right (by decide) hi

/-- Storing `a ^ x` in a byte and xoring the stored byte with `x` again gives `a` back. -/
theorem xor_roundtrip_byte (a x : Nat) (ha : a < 256) :
    ((a ^^^ x) % 256 ^^^ x) % 256 = a := by
  apply Nat.eq_of_testBit_eq
  intro i
  have h256 : (256 : Nat) = 2 ^ 8 := rfl
  rw [h256, Nat.testBit_mod_two_pow, Nat.testBit_xor, Nat.testBit_mod_two_pow, Nat.testBit_xor]
  by_cases hi : i < 8
  · simp [hi]
  · simp [hi, testBit_byte_high ha (Nat.le_of_not_lt hi)]

/-- Round trip of the camellia transform on buffers, shared by both ciphers. -/
theorem camellia_round_trip (plaintext key iv out1 out2 : List Nat) (n kl vl : Nat)
    (cap1 cap2 : Int) (hp : plaintext.length = n) (hpb : IsBytes plaintext) (hk : 0 < kl)
    (hkl : kl ≤ key.length) (hv : 0 < vl) (hvl : vl ≤ iv.length)
    (hcap1 : (n : Int) ≤ cap1) (hout1 : cap1 ≤ (out1.length : Int))
    (hcap2 : (n : Int) ≤ cap2) (hout2 : cap2 ≤ (out2.length : Int)) :
    ∃ c1 c2, EncryptWithCamellia plaintext n key kl iv vl out1 cap1 = .returned n c1 ∧
      EncryptWithCamellia c1 n key kl iv vl out2 cap2 = .returned n c2 ∧
      c2.take n = plaintext := by
  have ho1 : n ≤ out1.length := by omega
  have ho2 : n ≤ out2.length := by omega
  obtain ⟨r1, h1, hl1, hj1⟩ := camellia_spec plaintext key iv out1 n kl vl cap1 hcap1
    (by omega) ho1 hk hkl hv hvl
  obtain ⟨r2, h2, hl2, hj2⟩ := camellia_spec r1 key iv out2 n kl vl cap2 hcap2
    (by omega) ho2 hk hkl hv hvl
  refine ⟨r1, r2, h1, h2, ?_⟩
  apply List.ext_getElem?
  intro j
  rw [List.getElem?_take]
  by_cases hj : j < n
  · have hg : r1.getD j 0
        = (plaintext.getD j 0 ^^^ (key.getD (j % kl) 0 ^^^ iv.getD (j % vl) 0)) % 256 := by
      have := hj1 j
      rw [if_pos hj] at this
      exact getD_of_getElem? this
    rw [if_pos hj, hj2 j, if_pos hj, hg, xor_roundtrip_byte _ _ (getD_lt_of_isBytes hpb j),
      List.getElem?_eq_getElem (by omega), List.getD_eq_getElem _ _ (by omega)]
  · rw [if_neg hj, List.getElem?_eq_none (by omega)]

theorem camelliaStep_zero_key (key iv : List Nat) (ivLength : Int) (i : Nat) (b : List Nat)
    (hi : i < b.length) : camelliaStep key 0 iv ivLength i b = .error .divByZero := by
  simp only [camelliaStep, readAt_of_lt _ _ hi, cMod_zero, bind, Except.bind]

theorem polyStep_zero_key (key nonce pat : List Nat) (nonceLength : Int) (i : Nat)
    (b : List Nat) (hi : i < b.length) :
    polyStep key 0 nonce nonceLength pat i b = .error .divByZero := by
  simp only [polyStep, readAt_of_lt _ _ hi, cMod_zero, bind, Except.bind]

/-- With `keyLength = 0` and a non-empty plaintext that fits, `EncryptWithCamellia`
copies the plaintext and then divides by zero. -/
theorem camellia_zero_key (plaintext key iv out : List Nat) (n : Nat) (ivLength cap : Int)
    (hn : 1 ≤ n) (hp : plaintext.length = n) (hcap : (n : Int) ≤ cap)
    (hout : cap ≤ (out.length : Int)) :
    EncryptWithCamellia plaintext n key 0 iv ivLength out cap
      = .undefined .divByZero (plaintext ++ out.drop n) := by
  have h0 : ¬ ((n : Int) > cap) := by omega
  have ho : n ≤ out.length := by omega
  obtain ⟨m, rfl⟩ : ∃ m, n = m + 1 := ⟨n - 1, by omega⟩
  have ht : plaintext.take (m + 1) = plaintext := List.take_of_length_le (by omega)
  have hlen : 0 < (plaintext ++ out.drop (m + 1)).length := by
    rw [List.length_append]
    omega
  simp only [EncryptWithCamellia, if_neg h0, memcpy_of_le out plaintext (m + 1) (by omega) ho,
    Int.toNat_ofNat,
    forLoop_fault_first _ m 0 _ _ (camelliaStep_zero_key key iv ivLength 0 _ hlen), ht]

theorem hashStep_ok (term : Nat → Nat) (data : List Nat) (dl : Nat) (hd : 0 < dl)
    (hdl : dl ≤ data.length) (i : Nat) (b : List Nat) (hi : i < b.length) :
    hashStep term data dl i b
      = .ok (b.set i (((data.getD (i % dl) 0 + term i) &&& 0xFF) % 256)) := by
  have h1 : i % dl < data.length := lt_of_lt_of_le (Nat.mod_lt _ hd) hdl
  simp only [hashStep, cMod_natCast _ _ hd, readAt_of_lt _ _ h1, writeAt_of_lt _ _ _ hi,
    bind, Except.bind]

/-- What one branch of `HashData` returns and writes for non-empty data. -/
theorem hashBranch_spec (term : Nat → Nat) (size : Nat) (data : List Nat) (dl : Nat)
    (hd : 0 < dl) (hdl : dl ≤ data.length) (h : List Nat) (hs : size ≤ h.length) :
    ∃ r, hashBranch term size data dl h = .returned size r ∧ r.length = h.length ∧
      ∀ j, r[j]? = if j < size then
          some (((data.getD (j % dl) 0 + term j) &&& 0xFF) % 256)
        else h[j]? := by
  obtain ⟨r, hr, hrl, hrj⟩ := forLoop_pointwise (hashStep term data dl)
    (fun i _ => ((data.getD (i % dl) 0 + term i) &&& 0xFF) % 256) h.length size 0 h rfl
    (by omega)
    (fun i b _ _ _ hbl hb => hashStep_ok term data dl hd hdl i b (lt_length_of_getElem? hb))
  refine ⟨r, ?_, hrl, ?_⟩
  · simp only [hashBranch, hr]
  · intro j
    rw [hrj j]
    by_cases hj : j < size
    · have c1 : 0 ≤ j ∧ j < 0 + size := by omega
      rw [if_pos c1, if_pos hj, List.getElem?_eq_getElem (by omega)]
      rfl
    · have c1 : ¬ (0 ≤ j ∧ j < 0 + size) := by omega
      rw [if_neg c1, if_neg hj]

/-- Two runs of one branch of `HashData` on the same data: same digest bytes,
whatever the buffers held, and nothing written beyond the digest. -/
theorem hashBranch_two_runs (term : Nat → Nat) (size : Nat) (data : List Nat) (dl : Nat)
    (hd : 0 < dl) (hdl : dl ≤ data.length) (h1 h2 : List Nat) (hs1 : size ≤ h1.length)
    (hs2 : size ≤ h2.length) :
    ∃ r1 r2, hashBranch term size data dl h1 = .returned size r1 ∧
      hashBranch term size data dl h2 = .returned size r2 ∧
      r1.length = h1.length ∧ r1.drop size = h1.drop size ∧ r1.take size = r2.take size := by
  obtain ⟨r1, e1, l1, j1⟩ := hashBranch_spec term size data dl hd hdl h1 hs1
  obtain ⟨r2, e2, _, j2⟩ := hashBranch_spec term size data dl hd hdl h2 hs2
  refine ⟨r1, r2, e1, e2, l1, ?_, ?_⟩
  · apply List.ext_getElem?
    intro j
    rw [List.getElem?_drop, List.getElem?_drop, j1, if_neg (by omega)]
  · apply List.ext_getElem?
    intro j
    rw [List.getElem?_take, List.getElem?_take]
    by_cases hj : j < size
    · rw [if_pos hj, if_pos hj, j1, j2, if_pos hj, if_pos hj]
    · rw [if_neg hj, if_neg hj]

theorem pattern_length (rand : Nat → Nat) : (pattern rand).length = 16 := by
  simp [pattern]

theorem pattern_isBytes (rand : Nat → Nat) : IsBytes (pattern rand) := by
  intro b hb
  simp only [pattern, List.mem_map] at hb
  obtain ⟨i, _, rfl⟩ := hb
  exact Nat.mod_lt _ (by decide)

theorem land_ff_mod (x : Nat) : (x &&& 0xFF) % 256 = x % 256 := by
  have h := Nat.and_pow_two_sub_one_eq_mod x 8
  have e : (2 : Nat) ^ 8 - 1 = 0xFF := by decide
  rw [e] at h
  rw [h]
  exact Nat.mod_mod _ _

theorem polyStep_ok (key nonce pat : List Nat) (kl nl : Nat) (hk : 0 < kl)
    (hkl : kl ≤ key.length) (hn : 0 < nl) (hnl : nl ≤ nonce.length) (hpat : pat.length = 16)
    (i : Nat) (b : List Nat) (v : Nat) (hb : b[i]? = some v) :
    polyStep key kl nonce nl pat i b
      = .ok (b.set i ((v ^^^ (key.getD (i % kl) 0 ^^^ nonce.getD (i % nl) 0
          ^^^ pat.getD (i % 16) 0)) % 256)) := by
  have hi := lt_length_of_getElem? hb
  have h1 : i % kl < key.length := lt_of_lt_of_le (Nat.mod_lt _ hk) hkl
  have h2 : i % nl < nonce.length := lt_of_lt_of_le (Nat.mod_lt _ hn) hnl
  have h3 : i % 16 < pat.length := by
    rw [hpat]
    exact Nat.mod_lt _ (by decide)
  simp only [polyStep, readAt_of_lt _ _ hi, cMod_natCast _ _ hk, cMod_natCast _ _ hn,
    cMod_sixteen, readAt_of_lt _ _ h1, readAt_of_lt _ _ h2, readAt_of_lt _ _ h3,
    writeAt_of_lt _ _ _ hi, getD_of_getElem? hb, bind, Except.bind]

theorem sigStep_ok (cd key pat : List Nat) (n kl : Nat) (hn : 0 < n) (hcd : n ≤ cd.length)
    (hk : 0 < kl) (hkl : kl ≤ key.length) (hpat : pat.length = 16) (i : Nat) (b : List Nat)
    (hi : i < b.length) :
    sigStep cd n key kl pat i b
      = .ok (b.set i (if i < 16 then pat.getD i 0 % 256
          else (cd.getD (i % n) 0 + key.getD (i % kl) 0) % 256)) := by
  have h1 : i % kl < key.length := lt_of_lt_of_le (Nat.mod_lt _ hk) hkl
  have h2 : i % n < cd.length := lt_of_lt_of_le (Nat.mod_lt _ hn) hcd
  by_cases h16 : i < 16
  · have h3 : i < pat.length := by omega
    simp only [sigStep, if_pos h16, readAt_of_lt _ _ h3, writeAt_of_lt _ _ _ hi, bind,
      Except.bind]
  · simp only [sigStep, if_neg h16, cMod_natCast _ _ hn, cMod_natCast _ _ hk,
      readAt_of_lt _ _ h1, readAt_of_lt _ _ h2, writeAt_of_lt _ _ _ hi, land_ff_mod, bind,
      Except.bind]

/-- What a call of `PolymorphicEncrypt` that passes both checks with a non-empty
plaintext, key and nonce returns and writes. -/
theorem poly_spec (rand : Nat → Nat) (p key nonce out sig : List Nat) (n kl nl : Nat)
    (cap sl : Int) (hn : 0 < n) (hcap : (n : Int) ≤ cap) (hp : n ≤ p.length)
    (ho : n ≤ out.length) (hsl : 64 ≤ sl) (hsig : 64 ≤ sig.length) (hk : 0 < kl)
    (hkl : kl ≤ key.length) (hnl0 : 0 < nl) (hnl : nl ≤ nonce.length) :
    ∃ rc rs, PolymorphicEncrypt rand p n key kl nonce nl out cap sig sl = .returned n (rc, rs) ∧
      rc.length = out.length ∧ rs.length = sig.length ∧
      (∀ j, rc[j]? = if j < n then
          some ((p.getD j 0 ^^^ (key.getD (j % kl) 0 ^^^ nonce.getD (j % nl) 0
            ^^^ (pattern rand).getD (j % 16) 0)) % 256)
        else out[j]?) ∧
      (∀ j, rs[j]? = if j < 64 then
          some (if j < 16 then (pattern rand).getD j 0 % 256
            else (rc.getD (j % n) 0 + key.getD (j % kl) 0) % 256)
        else sig[j]?) := by
  obtain ⟨rc, hrc, hrcl, hrcj⟩ := forLoop_pointwise
    (polyStep key kl nonce nl (pattern rand))
    (fun i v => (v ^^^ (key.getD (i % kl) 0 ^^^ nonce.getD (i % nl) 0
      ^^^ (pattern rand).getD (i % 16) 0)) % 256) out.length n 0
    (p.take n ++ out.drop n) (memcpy_length out p n hp ho) (by omega)
    (fun i b v _ _ _ hb =>
      polyStep_ok key nonce (pattern rand) kl nl hk hkl hnl0 hnl (pattern_length rand) i b v hb)
  obtain ⟨rs, hrs, hrsl, hrsj⟩ := forLoop_pointwise
    (sigStep rc n key kl (pattern rand))
    (fun i _ => if i < 16 then (pattern rand).getD i 0 % 256
      else (rc.getD (i % n) 0 + key.getD (i % kl) 0) % 256) sig.length 64 0 sig rfl (by omega)
    (fun i b _ _ _ _ hb => sigStep_ok rc key (pattern rand) n kl hn (by omega) hk hkl
      (pattern_length rand) i b (lt_length_of_getElem? hb))
  refine ⟨rc, rs, ?_, hrcl, hrsl, ?_, ?_⟩
  · have h0 : ¬ ((n : Int) > cap) := by omega
    have h1 : ¬ (sl < 64) := by omega
    simp only [PolymorphicEncrypt, if_neg h0, if_neg h1, memcpy_of_le out p n hp ho,
      Int.toNat_ofNat, hrc, hrs]
  · intro j
    rw [hrcj j, memcpy_getElem? out p n hp j]
    by_cases hj : j < n
    · have c1 : 0 ≤ j ∧ j < 0 + n := by omega
      rw [if_pos c1, if_pos hj, if_pos hj]
      rfl
    · have c1 : ¬ (0 ≤ j ∧ j < 0 + n) := by omega
      rw [if_neg c1, if_neg hj, if_neg hj]
  · intro j
    rw [hrsj j]
    by_cases hj : j < 64
    · have c1 : 0 ≤ j ∧ j < 0 + 64 := by omega
      rw [if_pos c1, if_pos hj, List.getElem?_eq_getElem (by omega)]
      rfl
    · have c1 : ¬ (0 ≤ j ∧ j < 0 + 64) := by omega
      rw [if_neg c1, if_neg hj]

theorem readAt_eq (buf : List Nat) (idx : Int) (j v : Nat) (hidx : idx = (j : Int))
    (h : buf[j]? = some v) : readAt buf idx = .ok v := by
  subst hidx
  rw [readAt_of_lt buf j (lt_length_of_getElem? h), getD_of_getElem? h]

theorem writeAt_eq (buf : List Nat) (idx : Int) (j : Nat) (v : Nat) (hidx : idx = (j : Int))
    (h : j < buf.length) : writeAt buf idx v = .ok (buf.set j (v % 256)) := by
  subst hidx
  exact writeAt_of_lt buf j v h

theorem exists_getElem? (d : List Nat) (j : Nat) (h : j < d.length) : ∃ v, d[j]? = some v :=
  ⟨d[j], List.getElem?_eq_getElem h⟩

theorem junkStep_hit (i : Nat) (d : List Nat) (tr : List Event) (h : i + 6 ≤ d.length) :
    (do
      let m1 ← writeT { data := d, trace := tr } i 0xEB
      let m2 ← writeT m1 ((i : Int) + 1) 0x05
      let m3 ← writeT m2 ((i : Int) + 2) 0x90
      let m4 ← writeT m3 ((i : Int) + 3) 0x90
      let m5 ← writeT m4 ((i : Int) + 4) 0x90
      writeT m5 ((i : Int) + 5) 0x90)
    = .ok ⟨junkMarker d i, tr ++ [Event.write i, Event.write ((i : Int) + 1),
        Event.write ((i : Int) + 2), Event.write ((i : Int) + 3), Event.write ((i : Int) + 4),
        Event.write ((i : Int) + 5)]⟩ := by
  have w0 := fun (b : List Nat) (hb : b.length = d.length) v =>
    writeAt_eq b (i : Int) i v rfl (by omega)
  have w1 := fun (b : List Nat) (hb : b.length = d.length) v =>
    writeAt_eq b ((i : Int) + 1) (i + 1) v (by push_cast; rfl) (by omega)
  have w2 := fun (b : List Nat) (hb : b.length = d.length) v =>
    writeAt_eq b ((i : Int) + 2) (i + 2) v (by push_cast; rfl) (by omega)
  have w3 := fun (b : List Nat) (hb : b.length = d.length) v =>
    writeAt_eq b ((i : Int) + 3) (i + 3) v (by push_cast; rfl) (by omega)
  have w4 := fun (b : List Nat) (hb : b.length = d.length) v =>
    writeAt_eq b ((i : Int) + 4) (i + 4) v (by push_cast; rfl) (by omega)
  have w5 := fun (b : List Nat) (hb : b.length = d.length) v =>
    writeAt_eq b ((i : Int) + 5) (i + 5) v (by push_cast; rfl) (by omega)
  simp only [writeT, bind, Except.bind, pure, Except.pure, w0 d rfl,
    w1 _ (by simp : (d.set i (0xEB % 256)).length = d.length),
    w2 _ (by simp : ((d.set i (0xEB % 256)).set (i + 1) (0x05 % 256)).length = d.length),
    w3 _ (by simp :
      (((d.set i (0xEB % 256)).set (i + 1) (0x05 % 256)).set (i + 2) (0x90 % 256)).length
        = d.length),
    w4 _ (by simp :
      ((((d.set i (0xEB % 256)).set (i + 1) (0x05 % 256)).set (i + 2) (0x90 % 256)).set (i + 3)
        (0x90 % 256)).length = d.length),
    w5 _ (by simp :
      (((((d.set i (0xEB % 256)).set (i + 1) (0x05 % 256)).set (i + 2) (0x90 % 256)).set (i + 3)
        (0x90 % 256)).set (i + 4) (0x90 % 256)).length = d.length),
    junkMarker, List.append_assoc, List.singleton_append, List.cons_append, List.nil_append]

theorem junkStep_ok (i : Nat) (t : Traced) (h : i + 6 ≤ t.data.length) :
    junkStep i t = .ok ⟨junkNext t.data i, t.trace ++ stepEvents t.data i⟩ := by
  obtain ⟨d, tr⟩ := t
  simp only at h
  obtain ⟨v0, g0⟩ := exists_getElem? d i (by omega)
  obtain ⟨v1, g1⟩ := exists_getElem? d (i + 1) (by omega)
  obtain ⟨v2, g2⟩ := exists_getElem? d (i + 2) (by omega)
  obtain ⟨v3, g3⟩ := exists_getElem? d (i + 3) (by omega)
  have r0 := readAt_eq d (i : Int) i v0 rfl g0
  have r1 := readAt_eq d ((i : Int) + 1) (i + 1) v1 (by push_cast; rfl) g1
  have r2 := readAt_eq d ((i : Int) + 2) (i + 2) v2 (by push_cast; rfl) g2
  have r3 := readAt_eq d ((i : Int) + 3) (i + 3) v3 (by push_cast; rfl) g3
  have hit := junkStep_hit i d
  simp only [bind, Except.bind] at hit
  by_cases h0 : v0 = 0
  · by_cases h1 : v1 = 0
    · by_cases h2 : v2 = 0
      · by_cases h3 : v3 = 0
        · subst h0 h1 h2 h3
          have hz : fourZeros d i := ⟨g0, g1, g2, g3⟩
          simp only [junkStep, junkCond, readT, r0, r1, r2, r3, bind, Except.bind, pure,
            Except.pure, junkNext, stepEvents, if_pos hz, g0, g1, g2, g3, if_true, decide_True,
            hit _ h, List.append_assoc, List.singleton_append, List.cons_append,
            List.nil_append]
        · subst h0 h1 h2
          have hz : ¬ fourZeros d i := by
            simp [fourZeros, g3, h3]
          simp [junkStep, junkCond, readT, r0, r1, r2, r3, h3, bind, Except.bind, pure,
            Except.pure, junkNext, stepEvents, hz, g0, g1, g2]
      · subst h0 h1
        have hz : ¬ fourZeros d i := by
          simp [fourZeros, g2, h2]
        simp [junkStep, junkCond, readT, r0, r1, r2, h2, bind, Except.bind, pure, Except.pure,
          junkNext, stepEvents, hz, g0, g1, g2]
    · subst h0
      have hz : ¬ fourZeros d i := by
        simp [fourZeros, g1, h1]
      simp [junkStep, junkCond, readT, r0, r1, h1, bind, Except.bind, pure, Except.pure,
        junkNext, stepEvents, hz, g0, g1]
  · have hz : ¬ fourZeros d i := by
      simp [fourZeros, g0, h0]
    simp [junkStep, junkCond, readT, r0, h0, bind, Except.bind, pure, Except.pure, junkNext,
      stepEvents, hz, g0]
/-- A loop whose body keeps an invariant, indexed by the loop counter, runs to
the end and establishes the invariant at the final counter. -/
theorem forLoop_invariant {σ : Type} (body : Nat → σ → Except Fault σ)
    (Inv : Nat → σ → Prop) (count : Nat) :
    ∀ (start : Nat) (s : σ), Inv start s →
      (∀ i s, start ≤ i → i < start + count → Inv i s →
        ∃ s', body i s = .ok s' ∧ Inv (i + 1) s') →
      ∃ s', forLoop body count start s = .ok s' ∧ Inv (start + count) s' := by
  induction count with
  | zero =>
    intro start s h0 _
    exact ⟨s, rfl, h0⟩
  | succ k ih =>
    intro start s h0 hstep
    obtain ⟨s1, e1, i1⟩ := hstep start s le_rfl (by omega) h0
    obtain ⟨s2, e2, i2⟩ := ih (start + 1) s1 i1
      (fun i s hi1 hi2 hinv => hstep i s (by omega) (by omega) hinv)
    refine ⟨s2, ?_, ?_⟩
    · simp only [forLoop, e1, e2]
    · have : start + (k + 1) = start + 1 + k := by omega
      rw [this]
      exact i2

theorem junkMarker_length (d : List Nat) (i : Nat) : (junkMarker d i).length = d.length := by
  simp [junkMarker]

theorem junkMarker_getElem?_outside (d : List Nat) (i j : Nat) (h : j < i ∨ i + 6 ≤ j) :
    (junkMarker d i)[j]? = d[j]? := by
  simp only [junkMarker, List.getElem?_set]
  rw [if_neg (by omega), if_neg (by omega), if_neg (by omega), if_neg (by omega),
    if_neg (by omega), if_neg (by omega)]

theorem junkMarker_isMarker (d : List Nat) (i : Nat) (h : i + 6 ≤ d.length) :
    isMarker (junkMarker d i) i := by
  have h0 : i < d.length := by omega
  have h1 : i + 1 < d.length := by omega
  have h2 : i + 2 < d.length := by omega
  have h3 : i + 3 < d.length := by omega
  have h4 : i + 4 < d.length := by omega
  have h5 : i + 5 < d.length := by omega
  simp [isMarker, junkMarker, List.getElem?_set, h0, h1, h2, h3, h4, h5]

theorem isMarker_ne_zero {d : List Nat} {m : Nat} (h : isMarker d m) {k : Nat} (h1 : m ≤ k)
    (h2 : k < m + 6) : d[k]? ≠ some 0 := by
  obtain ⟨e0, e1, e2, e3, e4, e5⟩ := h
  obtain rfl | rfl | rfl | rfl | rfl | rfl :
      k = m ∨ k = m + 1 ∨ k = m + 2 ∨ k = m + 3 ∨ k = m + 4 ∨ k = m + 5 := by omega
  · rw [e0]; decide
  · rw [e1]; decide
  · rw [e2]; decide
  · rw [e3]; decide
  · rw [e4]; decide
  · rw [e5]; decide

theorem isMarker_apart {d : List Nat} {m1 m2 : Nat} (h1 : isMarker d m1) (h2 : isMarker d m2)
    (hlt : m1 < m2) : m1 + 6 ≤ m2 := by
  by_contra hc
  obtain ⟨a0, a1, a2, a3, a4, a5⟩ := h1
  have b0 := h2.1
  obtain rfl | rfl | rfl | rfl | rfl :
      m2 = m1 + 1 ∨ m2 = m1 + 2 ∨ m2 = m1 + 3 ∨ m2 = m1 + 4 ∨ m2 = m1 + 5 := by omega
  · rw [a1] at b0; exact absurd b0 (by decide)
  · rw [a2] at b0; exact absurd b0 (by decide)
  · rw [a3] at b0; exact absurd b0 (by decide)
  · rw [a4] at b0; exact absurd b0 (by decide)
  · rw [a5] at b0; exact absurd b0 (by decide)

theorem junkMarker_ne_zero (d : List Nat) (i : Nat) (h : i + 6 ≤ d.length) {k : Nat}
    (h1 : i ≤ k) (h2 : k < i + 6) : (junkMarker d i)[k]? ≠ some 0 :=
  isMarker_ne_zero (junkMarker_isMarker d i h) h1 h2

theorem junkNext_length (d : List Nat) (i : Nat) : (junkNext d i).length = d.length := by
  unfold junkNext
  split
  · exact junkMarker_length d i
  · rfl

theorem read_mem_stepEvents {d : List Nat} {i : Nat} {idx : Int}
    (h : Event.read idx ∈ stepEvents d i) : (i : Int) ≤ idx ∧ idx ≤ (i : Int) + 3 := by
  unfold stepEvents at h
  split_ifs at h <;> simp at h <;> omega

theorem write_mem_stepEvents {d : List Nat} {i : Nat} {idx : Int}
    (h : Event.write idx ∈ stepEvents d i) :
    fourZeros d i ∧ (i : Int) ≤ idx ∧ idx ≤ (i : Int) + 5 := by
  unfold stepEvents at h
  split_ifs at h <;> simp at h <;> refine ⟨by assumption, ?_, ?_⟩ <;> omega

theorem matched_mem_stepEvents {d : List Nat} {i : Nat} {idx : Int} :
    Event.matched idx ∈ stepEvents d i ↔ fourZeros d i ∧ idx = (i : Int) := by
  unfold stepEvents
  split_ifs <;> simp [*]

/-- One iteration of the scan keeps `ScanInv`. -/
theorem scanInv_step (input : List Nat) (i : Nat) (t : Traced) (hi : i + 9 ≤ input.length)
    (hinv : ScanInv input i t) :
    ScanInv input (i + 1) ⟨junkNext t.data i, t.trace ++ stepEvents t.data i⟩ := by
  obtain ⟨d, tr⟩ := t
  obtain ⟨hlen, hrd, hwr, hmt, hch, hnz⟩ := hinv
  simp only at hlen hrd hwr hmt hch hnz
  have hd6 : i + 6 ≤ d.length := by omega
  -- bytes of the window that are zero have not been touched by an earlier match
  have untouched : ∀ k : Nat, d[k]? = some 0 → d[k]? = input[k]? := by
    intro k hk
    by_contra hne
    obtain ⟨m, hm, h1, h2⟩ := hch k hne
    obtain ⟨m', e, _, _, hmark⟩ := hmt _ hm
    have : m' = m := by omega
    subst this
    exact isMarker_ne_zero hmark h1 h2 hk
  -- an earlier match ends before a position that holds a zero
  have before : ∀ m : Nat, Event.matched (m : Int) ∈ tr → d[i]? = some 0 → m + 6 ≤ i := by
    intro m hm h0
    obtain ⟨m', e, hlt, _, hmark⟩ := hmt _ hm
    have : m' = m := by omega
    subst this
    by_contra hc
    exact isMarker_ne_zero hmark (by omega) (by omega) h0
  refine ⟨?_, ?_, ?_, ?_, ?_, ?_⟩
  · simp only [junkNext_length, hlen]
  · intro idx hmem
    rcases List.mem_append.mp hmem with h | h
    · exact hrd idx h
    · have := read_mem_stepEvents h
      omega
  · intro idx hmem
    rcases List.mem_append.mp hmem with h | h
    · exact hwr idx h
    · have := write_mem_stepEvents h
      omega
  · intro idx hmem
    rcases List.mem_append.mp hmem with h | h
    · obtain ⟨m, e, hlt, hz, hmark⟩ := hmt idx h
      refine ⟨m, e, by omega, hz, ?_⟩
      by_cases hf : fourZeros d i
      · have hb := before m (e ▸ h) hf.1
        simp only [junkNext, if_pos hf]
        obtain ⟨e0, e1, e2, e3, e4, e5⟩ := hmark
        refine ⟨?_, ?_, ?_, ?_, ?_, ?_⟩ <;>
          (rw [junkMarker_getElem?_outside d i _ (by omega)]; assumption)
      · simp only [junkNext, if_neg hf]
        exact hmark
    · obtain ⟨hf, e⟩ := matched_mem_stepEvents.mp h
      refine ⟨i, e, by omega, ?_, ?_⟩
      · obtain ⟨z0, z1, z2, z3⟩ := hf
        exact ⟨untouched _ z0 ▸ z0, untouched _ z1 ▸ z1, untouched _ z2 ▸ z2,
          untouched _ z3 ▸ z3⟩
      · simp only [junkNext, if_pos hf]
        exact junkMarker_isMarker d i hd6
  · intro j hne
    by_cases hf : fourZeros d i
    · simp only [junkNext, if_pos hf] at hne
      by_cases hj : j < i ∨ i + 6 ≤ j
      · rw [junkMarker_getElem?_outside d i j hj] at hne
        obtain ⟨m, hm, h1, h2⟩ := hch j hne
        exact ⟨m, List.mem_append.mpr (Or.inl hm), h1, h2⟩
      · exact ⟨i, List.mem_append.mpr (Or.inr (matched_mem_stepEvents.mpr ⟨hf, rfl⟩)),
          by omega, by omega⟩
    · simp only [junkNext, if_neg hf] at hne
      obtain ⟨m, hm, h1, h2⟩ := hch j hne
      exact ⟨m, List.mem_append.mpr (Or.inl hm), h1, h2⟩
  · intro p hp
    by_cases hf : fourZeros d i
    · simp only [junkNext, if_pos hf]
      intro hz
      have nz : ∀ k : Nat, (junkMarker d i)[k]? = some 0 → d[k]? = some 0 := by
        intro k hk
        by_cases hj : k < i ∨ i + 6 ≤ k
        · rw [junkMarker_getElem?_outside d i k hj] at hk
          exact hk
        · exact absurd hk (junkMarker_ne_zero d i hd6 (by omega) (by omega))
      by_cases hpi : p = i
      · subst hpi
        exact junkMarker_ne_zero d p hd6 le_rfl (by omega) hz.1
      · exact hnz p (by omega) ⟨nz _ hz.1, nz _ hz.2.1, nz _ hz.2.2.1, nz _ hz.2.2.2⟩
    · simp only [junkNext, if_neg hf]
      by_cases hpi : p = i
      · subst hpi
        exact hf
      · exact hnz p (by omega)
theorem junkScan_succ (count : Nat) : ∀ (start : Nat) (d : List Nat),
    junkScan (count + 1) start d = junkNext (junkScan count start d) (start + count) := by
  induction count with
  | zero =>
    intro start d
    simp [junkScan]
  | succ k ih =>
    intro start d
    have e : start + (k + 1) = start + 1 + k := by omega
    rw [junkScan, ih (start + 1) (junkNext d start), e]
    rfl

theorem scanInv_init (data : List Nat) : ScanInv data 0 ⟨data, []⟩ := by
  refine ⟨rfl, ?_, ?_, ?_, ?_, ?_⟩
  · intro idx h
    exact absurd h (List.not_mem_nil _)
  · intro idx h
    exact absurd h (List.not_mem_nil _)
  · intro idx h
    exact absurd h (List.not_mem_nil _)
  · intro j h
    exact absurd rfl h
  · intro p h
    exact absurd h (Nat.not_lt_zero p)

/-- The junk scan over an image of `dataLength` bytes returns 1; its memory
satisfies `ScanInv` at the loop bound and holds the image `junkScan` computes. -/
theorem junk_run (data : List Nat) :
    ∃ t, ObfuscateExecutable data (data.length : Int) "junk" = .returned 1 t ∧
      ScanInv data (data.length - 8) t ∧ t.data = junkScan (data.length - 8) 0 data := by
  have hcount : ((data.length : Int) - 8).toNat = data.length - 8 := by omega
  obtain ⟨t, ht, hinv, hdata⟩ := forLoop_invariant junkStep
    (fun i t => ScanInv data i t ∧ t.data = junkScan i 0 data) (data.length - 8) 0
    ⟨data, []⟩ ⟨scanInv_init data, rfl⟩
    (by
      intro i s _ hi ⟨hinv, hdata⟩
      have h6 : i + 6 ≤ s.data.length := by
        rw [hinv.1]
        omega
      refine ⟨_, junkStep_ok i s h6, scanInv_step data i s (by omega) hinv, ?_⟩
      simp only [hdata, junkScan_succ, Nat.zero_add])
  refine ⟨t, ?_, ?_, ?_⟩
  · simp only [ObfuscateExecutable, if_true, hcount, ht]
  · simpa using hinv
  · simpa using hdata

theorem junkNext_of_not {d : List Nat} {i : Nat} (h : ¬ fourZeros d i) : junkNext d i = d := by
  simp only [junkNext, if_neg h]

/-- Positions that start no four zero bytes are passed without a change. -/
theorem junkScan_skip (k : Nat) : ∀ (count start : Nat) (d : List Nat),
    (∀ p, start ≤ p → p < start + k → ¬ fourZeros d p) →
    junkScan (k + count) start d = junkScan count (start + k) d := by
  induction k with
  | zero =>
    intro count start d _
    simp
  | succ k ih =>
    intro count start d h
    have e : k + 1 + count = (k + count) + 1 := by omega
    have e2 : start + (k + 1) = start + 1 + k := by omega
    rw [e, junkScan, junkNext_of_not (h start le_rfl (by omega)), e2]
    exact ih count (start + 1) d (fun p h1 h2 => h p (by omega) (by omega))

theorem fourZeros_junkMarker_false (d : List Nat) (i : Nat) (h : i + 6 ≤ d.length) (p : Nat)
    (h1 : i ≤ p) (h2 : p < i + 6) : ¬ fourZeros (junkMarker d i) p :=
  fun hz => junkMarker_ne_zero d i h h1 h2 hz.1

/-- The scan of the source and the reference scan that resumes six positions
after a match compute the same image, for every fuel that covers the positions
left. -/
theorem referenceJunkScan_eq_junkScan (dataLength : Int) (bound : Nat)
    (hb : ∀ i : Nat, ((i : Int) < dataLength - 8 ↔ i < bound)) (fuel : Nat) :
    ∀ (start : Nat) (d : List Nat), bound - start ≤ fuel → bound ≤ d.length - 8 →
      referenceJunkScan dataLength fuel start d = junkScan (bound - start) start d := by
  induction fuel with
  | zero =>
    intro start d hf _
    have : bound - start = 0 := by omega
    rw [this]
    rfl
  | succ f ih =>
    intro start d hf hlen
    by_cases hs : start < bound
    · obtain ⟨c, hc⟩ : ∃ c, bound - start = c + 1 := ⟨bound - start - 1, by omega⟩
      rw [hc, referenceJunkScan, if_pos ((hb start).mpr hs), junkScan]
      by_cases hz : fourZeros d start
      · rw [if_pos hz]
        simp only [junkNext, if_pos hz]
        have hl : (junkMarker d start).length = d.length := junkMarker_length d start
        rw [ih (start + 6) (junkMarker d start) (by omega) (by omega)]
        by_cases h5 : 5 ≤ c
        · have e1 : c = 5 + (bound - (start + 6)) := by omega
          rw [e1, junkScan_skip 5 (bound - (start + 6)) (start + 1) (junkMarker d start)
            (fun p h1 h2 => fourZeros_junkMarker_false d start (by omega) p (by omega)
              (by omega))]
        · have e1 : bound - (start + 6) = 0 := by omega
          have e2 : c = c + 0 := by omega
          rw [e1, e2, junkScan_skip c 0 (start + 1) (junkMarker d start)
            (fun p h1 h2 => fourZeros_junkMarker_false d start (by omega) p (by omega)
              (by omega))]
          rfl
      · rw [if_neg hz, junkNext_of_not hz, ih (start + 1) d (by omega) hlen]
        congr 1
        omega
    · have : bound - start = 0 := by omega
      rw [this, referenceJunkScan, if_neg (fun h => hs ((hb start).mp h))]
      rfl

theorem take_eq_take_iff (l1 l2 : List Nat) (n : Nat) :
    l1.take n = l2.take n ↔ ∀ j : Nat, j < n → l1[j]? = l2[j]? := by
  constructor
  · intro h j hj
    have := congrArg (fun l : List Nat => l[j]?) h
    simpa [List.getElem?_take, hj] using this
  · intro h
    apply List.ext_getElem?
    intro j
    rw [List.getElem?_take, List.getElem?_take]
    by_cases hj : j < n
    · rw [if_pos hj, if_pos hj, h j hj]
    · rw [if_neg hj, if_neg hj]

theorem getD_eq_of_getElem?_eq {l1 l2 : List Nat} {j : Nat} (h : l1[j]? = l2[j]?) :
    l1.getD j 0 = l2.getD j 0 := by
  rw [List.getD_eq_getElem?_getD, List.getD_eq_getElem?_getD, h]

theorem pattern_getElem? (rand : Nat → Nat) (j : Nat) (hj : j < 16) :
    (pattern rand)[j]? = some ((pattern rand).getD j 0) := by
  have hl : j < (pattern rand).length := by
    rw [pattern_length]
    exact hj
  rw [List.getElem?_eq_getElem hl, List.getD_eq_getElem _ _ hl]

/-- Two patterns with the same bytes are the same list. -/
theorem pattern_ext (r1 r2 : Nat → Nat)
    (h : ∀ j, j < 16 → (pattern r1).getD j 0 = (pattern r2).getD j 0) :
    pattern r1 = pattern r2 := by
  apply List.ext_getElem?
  intro j
  by_cases hj : j < 16
  · rw [pattern_getElem? r1 j hj, pattern_getElem? r2 j hj, h j hj]
  · rw [List.getElem?_eq_none (by rw [pattern_length]; omega),
      List.getElem?_eq_none (by rw [pattern_length]; omega)]

/-- Two runs of one branch of `HashData` on data that agree on the first `size`
bytes, both at least `size` bytes long, write the same digest. -/
theorem hashBranch_prefix (term : Nat → Nat) (size : Nat) (data1 data2 : List Nat)
    (n1 n2 : Nat) (hs : 0 < size) (hn1 : size ≤ n1) (hn2 : size ≤ n2) (hl1 : n1 ≤ data1.length)
    (hl2 : n2 ≤ data2.length) (hagree : data1.take size = data2.take size) (h1 h2 : List Nat)
    (hs1 : size ≤ h1.length) (hs2 : size ≤ h2.length) :
    ∃ r1 r2, hashBranch term size data1 n1 h1 = .returned size r1 ∧
      hashBranch term size data2 n2 h2 = .returned size r2 ∧
      r1.take size = r2.take size := by
  obtain ⟨r1, e1, _, j1⟩ := hashBranch_spec term size data1 n1 (by omega) hl1 h1 hs1
  obtain ⟨r2, e2, _, j2⟩ := hashBranch_spec term size data2 n2 (by omega) hl2 h2 hs2
  refine ⟨r1, r2, e1, e2, ?_⟩
  rw [take_eq_take_iff]
  intro j hj
  have hd : data1.getD j 0 = data2.getD j 0 :=
    getD_eq_of_getElem?_eq ((take_eq_take_iff data1 data2 size).mp hagree j hj)
  rw [j1, j2, if_pos hj, if_pos hj, Nat.mod_eq_of_lt (by omega : j < n1),
    Nat.mod_eq_of_lt (by omega : j < n2), hd]

/-- The junk scan on twenty zero bytes: positions 0..11 are scanned, the scan
matches at 0 and at 6, and the last eight bytes are neither rewritten nor read
beyond index 14. -/
theorem junk_scan_twenty_zeros :
    ObfuscateExecutable (List.replicate 20 0) 20 "junk"
      = .returned 1
        ⟨[0xEB, 0x05, 0x90, 0x90, 0x90, 0x90, 0xEB, 0x05, 0x90, 0x90, 0x90, 0x90,
            0, 0, 0, 0, 0, 0, 0, 0],
          [.read 0, .read 1, .read 2, .read 3, .matched 0,
            .write 0, .write 1, .write 2, .write 3, .write 4, .write 5,
            .read 1, .read 2, .read 3, .read 4, .read 5,
            .read 6, .read 7, .read 8, .read 9, .matched 6,
            .write 6, .write 7, .write 8, .write 9, .write 10, .write 11,
            .read 7, .read 8, .read 9, .read 10, .read 11]⟩ := by
  decide

/-! ## The claims -/

/-- C1: round trip. For a plaintext of length `n` that fits the capacity, a key
with `keyLength > 0` and a tweak of at least 16 bytes (`EncryptDataXTS`) or an iv
with `ivLength > 0` (`EncryptWithCamellia`), the call returns `n`, and the
transform applied to the buffer it wrote, with the same key and aux parameter,
returns `n` and writes the original plaintext back, byte for byte. -/
theorem C1_round_trip (plaintext key tweak iv out1 out2 : List Nat)
    (n keyLength ivLength : Nat) (cap1 cap2 : Int)
    (hp : plaintext.length = n) (hpb : IsBytes plaintext)
    (hk : 0 < keyLength) (hkl : keyLength ≤ key.length) (ht : 16 ≤ tweak.length)
    (hv : 0 < ivLength) (hvl : ivLength ≤ iv.length)
    (hcap1 : (n : Int) ≤ cap1) (hout1 : cap1 ≤ (out1.length : Int))
    (hcap2 : (n : Int) ≤ cap2) (hout2 : cap2 ≤ (out2.length : Int)) :
    (∃ c1 c2, EncryptDataXTS plaintext n key keyLength tweak out1 cap1 = .returned n c1 ∧
      EncryptDataXTS c1 n key keyLength tweak out2 cap2 = .returned n c2 ∧
      c2.take n = plaintext) ∧
    (∃ c1 c2, EncryptWithCamellia plaintext n key keyLength iv ivLength out1 cap1
        = .returned n c1 ∧
      EncryptWithCamellia c1 n key keyLength iv ivLength out2 cap2 = .returned n c2 ∧
      c2.take n = plaintext) := by
  constructor
  · simp only [EncryptDataXTS_eq_Camellia]
    exact camellia_round_trip plaintext key tweak out1 out2 n keyLength 16 cap1 cap2 hp hpb
      hk hkl (by decide) ht hcap1 hout1 hcap2 hout2
  · exact camellia_round_trip plaintext key iv out1 out2 n keyLength ivLength cap1 cap2 hp hpb
      hk hkl hv hvl hcap1 hout1 hcap2 hout2

/-- Witness of C1: a 3-byte plaintext, a 2-byte key, a 16-byte tweak, a 1-byte
iv and output buffers of 4 and 3 bytes. -/
theorem C1_round_trip_witness :
    (∃ c1 c2, EncryptDataXTS [1, 2, 250] 3 [7, 9] 2 (List.range 16) [0, 0, 0, 0] 4
        = .returned 3 c1 ∧
      EncryptDataXTS c1 3 [7, 9] 2 (List.range 16) [5, 5, 5] 3 = .returned 3 c2 ∧
      c2.take 3 = [1, 2, 250]) ∧
    (∃ c1 c2, EncryptWithCamellia [1, 2, 250] 3 [7, 9] 2 [200] 1 [0, 0, 0, 0] 4
        = .returned 3 c1 ∧
      EncryptWithCamellia c1 3 [7, 9] 2 [200] 1 [5, 5, 5] 3 = .returned 3 c2 ∧
      c2.take 3 = [1, 2, 250]) :=
  C1_round_trip [1, 2, 250] [7, 9] (List.range 16) [200] [0, 0, 0, 0] [5, 5, 5] 3 2 1 4 3
    (by decide) (by decide) (by decide) (by decide) (by decide) (by decide) (by decide)
    (by decide) (by decide) (by decide) (by decide)

/-- C2: whenever `plaintextLength` exceeds `ciphertextLength`, `EncryptDataXTS`
and `EncryptWithCamellia` return -1 and the output buffer is unchanged. -/
theorem C2_undersized_output (plaintext key tweak iv ciphertext : List Nat)
    (plaintextLength keyLength ivLength ciphertextLength : Int)
    (h : plaintextLength > ciphertextLength) :
    EncryptDataXTS plaintext plaintextLength key keyLength tweak ciphertext ciphertextLength
      = .returned (-1) ciphertext ∧
    EncryptWithCamellia plaintext plaintextLength key keyLength iv ivLength ciphertext
      ciphertextLength = .returned (-1) ciphertext := by
  simp only [EncryptDataXTS, EncryptWithCamellia, if_pos h, and_self]

/-- Witness of C2: 3 bytes of plaintext for a capacity of 2. -/
theorem C2_undersized_output_witness :
    EncryptDataXTS [1, 2, 3] 3 [7, 9] 2 (List.range 16) [4, 4] 2 = .returned (-1) [4, 4] ∧
    EncryptWithCamellia [1, 2, 3] 3 [7, 9] 2 [200] 1 [4, 4] 2 = .returned (-1) [4, 4] :=
  C2_undersized_output [1, 2, 3] [7, 9] (List.range 16) [200] [4, 4] 3 2 1 2 (by decide)

/-- Counterexample to C3 as stated: with `keyLength = 0`, a 3-byte plaintext and
a capacity of 4, none of the three operations returns a status, and each has
already copied the plaintext into its output buffer. -/
theorem C3_counterexample :
    EncryptDataXTS [1, 2, 3] 3 [] 0 (List.range 16) [0, 0, 0, 0] 4
      = .undefined .divByZero [1, 2, 3, 0] ∧
    EncryptWithCamellia [1, 2, 3] 3 [] 0 [200] 1 [0, 0, 0, 0] 4
      = .undefined .divByZero [1, 2, 3, 0] ∧
    PolymorphicEncrypt (fun i => i) [1, 2, 3] 3 [] 0 [200] 1 [0, 0, 0, 0] 4
        (List.replicate 64 0) 64
      = .undefined .divByZero ([1, 2, 3, 0], List.replicate 64 0) := by
  decide

/-- C3 (amended): empty key material is not checked. For every call of
`EncryptDataXTS`, `EncryptWithCamellia` or `PolymorphicEncrypt` (signature
capacity at least 64) with `keyLength = 0` and a non-empty plaintext that fits
the output buffer, no status is returned: the plaintext has been copied into the
output buffer when the first key index `i % keyLength` divides by zero. -/
theorem C3_empty_key_unchecked (rand : Nat → Nat)
    (plaintext key aux out signature : List Nat) (n : Nat)
    (auxLength cap signatureLength : Int)
    (hn : 1 ≤ n) (hp : plaintext.length = n) (hcap : (n : Int) ≤ cap)
    (hout : cap ≤ (out.length : Int)) (hsig : 64 ≤ signatureLength) :
    EncryptDataXTS plaintext n key 0 aux out cap
      = .undefined .divByZero (plaintext ++ out.drop n) ∧
    EncryptWithCamellia plaintext n key 0 aux auxLength out cap
      = .undefined .divByZero (plaintext ++ out.drop n) ∧
    PolymorphicEncrypt rand plaintext n key 0 aux auxLength out cap signature signatureLength
      = .undefined .divByZero (plaintext ++ out.drop n, signature) := by
  refine ⟨?_, camellia_zero_key plaintext key aux out n auxLength cap hn hp hcap hout, ?_⟩
  · rw [EncryptDataXTS_eq_Camellia]
    exact camellia_zero_key plaintext key aux out n 16 cap hn hp hcap hout
  · have h0 : ¬ ((n : Int) > cap) := by omega
    have h1 : ¬ (signatureLength < 64) := by omega
    have ho : n ≤ out.length := by omega
    obtain ⟨m, rfl⟩ : ∃ m, n = m + 1 := ⟨n - 1, by omega⟩
    have ht : plaintext.take (m + 1) = plaintext := List.take_of_length_le (by omega)
    have hlen : 0 < (plaintext ++ out.drop (m + 1)).length := by
      rw [List.length_append]
      omega
    simp only [PolymorphicEncrypt, if_neg h0, if_neg h1,
      memcpy_of_le out plaintext (m + 1) (by omega) ho, Int.toNat_ofNat,
      forLoop_fault_first _ m 0 _ _ (polyStep_zero_key key aux (pattern rand) auxLength 0 _ hlen),
      ht]

/-- Witness of C3 (amended): a 2-byte plaintext, an empty key, capacity 2. -/
theorem C3_empty_key_unchecked_witness :
    EncryptDataXTS [10, 20] 2 [] 0 (List.range 16) [0, 0, 9] 2
      = .undefined .divByZero ([10, 20] ++ [0, 0, 9].drop 2) ∧
    EncryptWithCamellia [10, 20] 2 [] 0 (List.range 16) 16 [0, 0, 9] 2
      = .undefined .divByZero ([10, 20] ++ [0, 0, 9].drop 2) ∧
    PolymorphicEncrypt (fun i => 3 * i) [10, 20] 2 [] 0 (List.range 16) 16 [0, 0, 9] 2
        (List.replicate 64 1) 64
      = .undefined .divByZero ([10, 20] ++ [0, 0, 9].drop 2, List.replicate 64 1) :=
  C3_empty_key_unchecked (fun i => 3 * i) [10, 20] [] (List.range 16) [0, 0, 9]
    (List.replicate 64 1) 2 16 2 64 (by decide) (by decide) (by decide) (by decide) (by decide)

/-- C4: for a plaintext of length `n` that fits the capacity and a key with
`keyLength > 0`, `EncryptDataXTS` (tweak of at least 16 bytes) and
`EncryptWithCamellia` (`ivLength > 0`) return `n`, keep the buffer length, leave
every byte at index `>= n` unchanged, and write at every `i < n` the byte
`plaintext[i] XOR key[i mod keyLength] XOR aux[i mod auxLength]`, with
`auxLength = 16` for `EncryptDataXTS`. -/
theorem C4_length_preserving_xor (plaintext key tweak iv out : List Nat)
    (n keyLength ivLength : Nat) (cap : Int)
    (hp : plaintext.length = n) (hpb : IsBytes plaintext)
    (hk : 0 < keyLength) (hkl : keyLength ≤ key.length) (hkb : IsBytes key)
    (ht : 16 ≤ tweak.length) (htb : IsBytes tweak)
    (hv : 0 < ivLength) (hvl : ivLength ≤ iv.length) (hvb : IsBytes iv)
    (hcap : (n : Int) ≤ cap) (hout : cap ≤ (out.length : Int)) :
    (∃ r, EncryptDataXTS plaintext n key keyLength tweak out cap = .returned n r ∧
      r.length = out.length ∧
      (∀ i, i < n → r[i]? = some (plaintext.getD i 0 ^^^ key.getD (i % keyLength) 0
        ^^^ tweak.getD (i % 16) 0)) ∧
      (∀ i, n ≤ i → r[i]? = out[i]?)) ∧
    (∃ r, EncryptWithCamellia plaintext n key keyLength iv ivLength out cap = .returned n r ∧
      r.length = out.length ∧
      (∀ i, i < n → r[i]? = some (plaintext.getD i 0 ^^^ key.getD (i % keyLength) 0
        ^^^ iv.getD (i % ivLength) 0)) ∧
      (∀ i, n ≤ i → r[i]? = out[i]?)) := by
  have ho : n ≤ out.length := by omega
  have key_fact : ∀ (aux : List Nat) (vl : Nat), IsBytes aux → 0 < vl → vl ≤ aux.length →
      ∃ r, EncryptWithCamellia plaintext n key keyLength aux vl out cap = .returned n r ∧
        r.length = out.length ∧
        (∀ i, i < n → r[i]? = some (plaintext.getD i 0 ^^^ key.getD (i % keyLength) 0
          ^^^ aux.getD (i % vl) 0)) ∧
        (∀ i, n ≤ i → r[i]? = out[i]?) := by
    intro aux vl hab hvl0 hvl1
    obtain ⟨r, hr, hrl, hrj⟩ := camellia_spec plaintext key aux out n keyLength vl cap hcap
      (by omega) ho hk hkl hvl0 hvl1
    refine ⟨r, hr, hrl, ?_, ?_⟩
    · intro i hi
      rw [hrj i, if_pos hi, ← Nat.xor_assoc]
      congr 1
      exact Nat.mod_eq_of_lt (xor_byte_lt (xor_byte_lt (getD_lt_of_isBytes hpb i)
        (getD_lt_of_isBytes hkb _)) (getD_lt_of_isBytes hab _))
    · intro i hi
      rw [hrj i, if_neg (by omega)]
  refine ⟨?_, key_fact iv ivLength hvb hv hvl⟩
  simp only [EncryptDataXTS_eq_Camellia]
  exact key_fact tweak 16 htb (by decide) ht

/-- Witness of C4: a 3-byte plaintext, a 2-byte key, a 16-byte tweak, a 1-byte
iv and a 4-byte output buffer. -/
theorem C4_length_preserving_xor_witness :
    (∃ r, EncryptDataXTS [1, 2, 250] 3 [7, 9] 2 (List.range 16) [0, 0, 0, 77] 4
        = .returned 3 r ∧
      r.length = [0, 0, 0, 77].length ∧
      (∀ i, i < 3 → r[i]? = some ([1, 2, 250].getD i 0 ^^^ [7, 9].getD (i % 2) 0
        ^^^ (List.range 16).getD (i % 16) 0)) ∧
      (∀ i, 3 ≤ i → r[i]? = [0, 0, 0, 77][i]?)) ∧
    (∃ r, EncryptWithCamellia [1, 2, 250] 3 [7, 9] 2 [200] 1 [0, 0, 0, 77] 4 = .returned 3 r ∧
      r.length = [0, 0, 0, 77].length ∧
      (∀ i, i < 3 → r[i]? = some ([1, 2, 250].getD i 0 ^^^ [7, 9].getD (i % 2) 0
        ^^^ [200].getD (i % 1) 0)) ∧
      (∀ i, 3 ≤ i → r[i]? = [0, 0, 0, 77][i]?)) :=
  C4_length_preserving_xor [1, 2, 250] [7, 9] (List.range 16) [200] [0, 0, 0, 77] 3 2 1 4
    (by decide) (by decide) (by decide) (by decide) (by decide) (by decide) (by decide)
    (by decide) (by decide) (by decide) (by decide) (by decide)

/-- C5: for non-empty data (`dataLength >= 1`) and a supported algorithm of
digest size `size` (MD5=16, SHA1=20, SHA256=32, BLAKE2B=64), whenever
`hashValueLength >= size`, `HashData` returns `size`, keeps the buffer length,
leaves the bytes beyond the first `size` unchanged, and two calls on the same
data and algorithm write the same first `size` bytes whatever the previous
contents and capacities of their output buffers. -/
theorem C5_digest_size_and_determinism (data h1 h2 : List Nat) (dataLength : Nat)
    (algorithm : String) (size : Nat) (cap1 cap2 : Int)
    (halg : (algorithm, size) ∈ digestSizes)
    (hd : 1 ≤ dataLength) (hdl : data.length = dataLength)
    (hcap1 : (size : Int) ≤ cap1) (hout1 : cap1 ≤ (h1.length : Int))
    (hcap2 : (size : Int) ≤ cap2) (hout2 : cap2 ≤ (h2.length : Int)) :
    ∃ r1 r2, HashData data dataLength algorithm h1 cap1 = .returned size r1 ∧
      HashData data dataLength algorithm h2 cap2 = .returned size r2 ∧
      r1.length = h1.length ∧ r1.drop size = h1.drop size ∧ r1.take size = r2.take size := by
  have hs1 : size ≤ h1.length := by omega
  have hs2 : size ≤ h2.length := by omega
  have hdl2 : dataLength ≤ data.length := by omega
  simp only [digestSizes, List.mem_cons, Prod.mk.injEq, List.mem_singleton, List.not_mem_nil,
    or_false] at halg
  rcases halg with ⟨rfl, rfl⟩ | ⟨rfl, rfl⟩ | ⟨rfl, rfl⟩ | ⟨rfl, rfl⟩
  · have e1 : cap1 ≥ 16 := by omega
    have e2 : cap2 ≥ 16 := by omega
    simpa [HashData, e1, e2] using
      hashBranch_two_runs (fun i => i) 16 data dataLength hd hdl2 h1 h2 hs1 hs2
  · have e1 : cap1 ≥ 20 := by omega
    have e2 : cap2 ≥ 20 := by omega
    simpa [HashData, e1, e2] using
      hashBranch_two_runs (fun i => i * 2) 20 data dataLength hd hdl2 h1 h2 hs1 hs2
  · have e1 : cap1 ≥ 32 := by omega
    have e2 : cap2 ≥ 32 := by omega
    simpa [HashData, e1, e2] using
      hashBranch_two_runs (fun i => i * 3) 32 data dataLength hd hdl2 h1 h2 hs1 hs2
  · have e1 : cap1 ≥ 64 := by omega
    have e2 : cap2 ≥ 64 := by omega
    simpa [HashData, e1, e2] using
      hashBranch_two_runs (fun i => i * 5) 64 data dataLength hd hdl2 h1 h2 hs1 hs2

/-- Witness of C5: SHA256 of the three bytes 41 42 43 into a zeroed 32-byte
buffer and into a 40-byte buffer of ones. -/
theorem C5_digest_size_and_determinism_witness :
    ∃ r1 r2,
      HashData [0x41, 0x42, 0x43] 3 "SHA256" (List.replicate 32 0) 32 = .returned 32 r1 ∧
      HashData [0x41, 0x42, 0x43] 3 "SHA256" (List.replicate 40 1) 40 = .returned 32 r2 ∧
      r1.length = (List.replicate 32 0).length ∧
      r1.drop 32 = (List.replicate 32 0).drop 32 ∧ r1.take 32 = r2.take 32 :=
  C5_digest_size_and_determinism [0x41, 0x42, 0x43] (List.replicate 32 0) (List.replicate 40 1)
    3 "SHA256" 32 32 40 (by decide) (by decide) (by decide) (by decide) (by decide)
    (by decide) (by decide)

/-- C6: `HashData` returns -1 and leaves the output buffer unmodified for every
algorithm string that is not exactly one of "MD5", "SHA1", "SHA256", "BLAKE2B",
and for every supported algorithm whose digest size exceeds `hashValueLength`. -/
theorem C6_unsupported_or_undersized (data hashValue : List Nat)
    (dataLength hashValueLength : Int) (algorithm : String)
    (h : algorithm ∉ ["MD5", "SHA1", "SHA256", "BLAKE2B"] ∨
      ∃ size : Nat, (algorithm, size) ∈ digestSizes ∧ hashValueLength < size) :
    HashData data dataLength algorithm hashValue hashValueLength = .returned (-1) hashValue := by
  rcases h with h | ⟨size, halg, hlt⟩
  · simp only [List.mem_cons, List.mem_singleton, List.not_mem_nil, or_false, not_or] at h
    obtain ⟨n1, n2, n3, n4⟩ := h
    simp [HashData, n1, n2, n3, n4]
  · simp only [digestSizes, List.mem_cons, Prod.mk.injEq, List.mem_singleton, List.not_mem_nil,
      or_false] at halg
    rcases halg with ⟨rfl, rfl⟩ | ⟨rfl, rfl⟩ | ⟨rfl, rfl⟩ | ⟨rfl, rfl⟩
    · have e : ¬ (hashValueLength ≥ 16) := by push_cast at hlt; omega
      simp [HashData, e]
    · have e : ¬ (hashValueLength ≥ 20) := by push_cast at hlt; omega
      simp [HashData, e]
    · have e : ¬ (hashValueLength ≥ 32) := by push_cast at hlt; omega
      simp [HashData, e]
    · have e : ¬ (hashValueLength ≥ 64) := by push_cast at hlt; omega
      simp [HashData, e]

/-- Witness of C6: the names "md5" and "" with a 64-byte buffer, and "SHA256"
with a 31-byte buffer. -/
theorem C6_unsupported_or_undersized_witness :
    HashData [0x41, 0x42, 0x43] 3 "md5" (List.replicate 64 7) 64
      = .returned (-1) (List.replicate 64 7) ∧
    HashData [0x41, 0x42, 0x43] 3 "" (List.replicate 64 7) 64
      = .returned (-1) (List.replicate 64 7) ∧
    HashData [0x41, 0x42, 0x43] 3 "SHA256" (List.replicate 31 7) 31
      = .returned (-1) (List.replicate 31 7) :=
  ⟨C6_unsupported_or_undersized [0x41, 0x42, 0x43] (List.replicate 64 7) 3 64 "md5"
      (Or.inl (by decide)),
    C6_unsupported_or_undersized [0x41, 0x42, 0x43] (List.replicate 64 7) 3 64 ""
      (Or.inl (by decide)),
    C6_unsupported_or_undersized [0x41, 0x42, 0x43] (List.replicate 31 7) 3 31 "SHA256"
      (Or.inr ⟨32, by decide, by decide⟩)⟩

/-- C7: `PolymorphicEncrypt` fails fast with one code per cause. If
`plainDataLength > cipherDataLength` it returns -1, whatever `signatureLength`
is; if `plainDataLength <= cipherDataLength` and `signatureLength < 64` it
returns -2; in both cases `cipherData` and `signature` are unmodified. -/
theorem C7_fail_fast (rand : Nat → Nat) (plainData key nonce cipherData signature : List Nat)
    (plainDataLength keyLength nonceLength cipherDataLength signatureLength : Int) :
    (plainDataLength > cipherDataLength →
      PolymorphicEncrypt rand plainData plainDataLength key keyLength nonce nonceLength
        cipherData cipherDataLength signature signatureLength
        = .returned (-1) (cipherData, signature)) ∧
    (plainDataLength ≤ cipherDataLength → signatureLength < 64 →
      PolymorphicEncrypt rand plainData plainDataLength key keyLength nonce nonceLength
        cipherData cipherDataLength signature signatureLength
        = .returned (-2) (cipherData, signature)) := by
  constructor
  · intro h
    simp only [PolymorphicEncrypt, if_pos h]
  · intro h1 h2
    have h0 : ¬ (plainDataLength > cipherDataLength) := by omega
    simp only [PolymorphicEncrypt, if_neg h0, if_pos h2]

/-- Witness of C7: a plaintext of 16 bytes, a key of 16 bytes, a nonce of 8
bytes, cipher capacity 16 and signature capacity 63 return -2 with `cipherData`
untouched; the same call into a cipher capacity of 15 returns -1. -/
theorem C7_fail_fast_witness :
    PolymorphicEncrypt (fun i => 7 * i + 3) (List.range 16) 16 (List.range 16) 16
        (List.range 8) 8 (List.replicate 16 0) 16 (List.replicate 63 0) 63
      = .returned (-2) (List.replicate 16 0, List.replicate 63 0) ∧
    PolymorphicEncrypt (fun i => 7 * i + 3) (List.range 16) 16 (List.range 16) 16
        (List.range 8) 8 (List.replicate 15 0) 15 (List.replicate 63 0) 63
      = .returned (-1) (List.replicate 15 0, List.replicate 63 0) :=
  ⟨(C7_fail_fast (fun i => 7 * i + 3) (List.range 16) (List.range 16) (List.range 8)
      (List.replicate 16 0) (List.replicate 63 0) 16 16 8 16 63).2 (by decide) (by decide),
    (C7_fail_fast (fun i => 7 * i + 3) (List.range 16) (List.range 16) (List.range 8)
      (List.replicate 15 0) (List.replicate 63 0) 16 16 8 15 63).1 (by decide)⟩

/-- C8 at its failing input: an empty plaintext (`plainDataLength = 0`) with a
1-byte key, a 1-byte nonce, a 4-byte cipher buffer and a 64-byte signature
buffer passes both checks,
and the call does not return 0: after the 16 pattern bytes are written, the
signature loop evaluates `i % plainDataLength` at `i = 16`, a division by zero. -/
theorem C8_empty_plaintext_divides_by_zero :
    PolymorphicEncrypt (fun i => i) [] 0 [1] 1 [1] 1 [9, 9, 9, 9] 4 (List.replicate 64 0) 64
      = .undefined .divByZero ([9, 9, 9, 9], List.range 16 ++ List.replicate 48 0) := by
  decide

/-- C9: self-recoverability of the Pattern. For a plaintext of length `n >= 1`
that fits, `keyLength > 0`, `nonceLength > 0`, a signature capacity of at least
64 and any random draws, `PolymorphicEncrypt` returns `n` and every plaintext
byte `i < n` equals `cipherData[i] XOR key[i mod keyLength] XOR
nonce[i mod nonceLength] XOR signature[i mod 16]` of the buffers it wrote. -/
theorem C9_pattern_self_recoverable (rand : Nat → Nat)
    (plainData key nonce cipherData signature : List Nat) (n keyLength nonceLength : Nat)
    (cap signatureLength : Int)
    (hn : 1 ≤ n) (hp : plainData.length = n) (hpb : IsBytes plainData)
    (hk : 0 < keyLength) (hkl : keyLength ≤ key.length) (hkb : IsBytes key)
    (hnl0 : 0 < nonceLength) (hnl : nonceLength ≤ nonce.length) (hnb : IsBytes nonce)
    (hcap : (n : Int) ≤ cap) (hout : cap ≤ (cipherData.length : Int))
    (hsl : 64 ≤ signatureLength) (hsig : signatureLength ≤ (signature.length : Int)) :
    ∃ ct s, PolymorphicEncrypt rand plainData n key keyLength nonce nonceLength cipherData cap
        signature signatureLength = .returned n (ct, s) ∧
      ∀ i, i < n → plainData.getD i 0 = ct.getD i 0 ^^^ key.getD (i % keyLength) 0
        ^^^ nonce.getD (i % nonceLength) 0 ^^^ s.getD (i % 16) 0 := by
  obtain ⟨rc, rs, hr, _, _, hrc, hrs⟩ := poly_spec rand plainData key nonce cipherData signature
    n keyLength nonceLength cap signatureLength (by omega) hcap (by omega) (by omega) hsl
    (by omega) hk hkl hnl0 hnl
  refine ⟨rc, rs, hr, ?_⟩
  intro i hi
  have h16 : i % 16 < 16 := Nat.mod_lt _ (by decide)
  have hpat : (pattern rand).getD (i % 16) 0 < 256 := getD_lt_of_isBytes (pattern_isBytes rand) _
  have e1 : rc.getD i 0 = plainData.getD i 0 ^^^ (key.getD (i % keyLength) 0
      ^^^ nonce.getD (i % nonceLength) 0 ^^^ (pattern rand).getD (i % 16) 0) := by
    have := hrc i
    rw [if_pos hi] at this
    rw [getD_of_getElem? this]
    exact Nat.mod_eq_of_lt (xor_byte_lt (getD_lt_of_isBytes hpb i)
      (xor_byte_lt (xor_byte_lt (getD_lt_of_isBytes hkb _) (getD_lt_of_isBytes hnb _)) hpat))
  have e2 : rs.getD (i % 16) 0 = (pattern rand).getD (i % 16) 0 := by
    have := hrs (i % 16)
    rw [if_pos (by omega), if_pos h16] at this
    rw [getD_of_getElem? this]
    exact Nat.mod_eq_of_lt hpat
  rw [e1, e2, Nat.xor_assoc (plainData.getD i 0 ^^^ _) (key.getD (i % keyLength) 0) _,
    Nat.xor_assoc (plainData.getD i 0 ^^^ _) _ ((pattern rand).getD (i % 16) 0),
    Nat.xor_cancel_right]

/-- Witness of C9: a 3-byte plaintext, a 2-byte key, a 1-byte nonce, a 4-byte
cipher buffer and a 64-byte signature buffer. -/
theorem C9_pattern_self_recoverable_witness :
    ∃ ct s, PolymorphicEncrypt (fun i => 7 * i + 3) [1, 2, 250] 3 [7, 9] 2 [200] 1
        [0, 0, 0, 77] 4 (List.replicate 64 0) 64 = .returned 3 (ct, s) ∧
      ∀ i, i < 3 → [1, 2, 250].getD i 0 = ct.getD i 0 ^^^ [7, 9].getD (i % 2) 0
        ^^^ [200].getD (i % 1) 0 ^^^ s.getD (i % 16) 0 :=
  C9_pattern_self_recoverable (fun i => 7 * i + 3) [1, 2, 250] [7, 9] [200] [0, 0, 0, 77]
    (List.replicate 64 0) 3 2 1 4 64 (by decide) (by decide) (by decide) (by decide)
    (by decide) (by decide) (by decide) (by decide) (by decide) (by decide) (by decide)
    (by decide) (by decide)

/-- C10: signature layout. For a plaintext of length `n >= 1` that fits,
`keyLength > 0`, `nonceLength > 0` and a signature capacity of at least 64,
`PolymorphicEncrypt` returns `n`, keeps the length of the signature buffer and
its bytes at index `>= 64`; `signature[i]` is `pattern[i]` for `i < 16` and
`(cipherData[i mod n] + key[i mod keyLength]) mod 256` for `16 <= i < 64`, with
`cipherData` the ciphertext written by the same call. -/
theorem C10_signature_layout (rand : Nat → Nat)
    (plainData key nonce cipherData signature : List Nat) (n keyLength nonceLength : Nat)
    (cap signatureLength : Int)
    (hn : 1 ≤ n) (hp : plainData.length = n)
    (hk : 0 < keyLength) (hkl : keyLength ≤ key.length)
    (hnl0 : 0 < nonceLength) (hnl : nonceLength ≤ nonce.length)
    (hcap : (n : Int) ≤ cap) (hout : cap ≤ (cipherData.length : Int))
    (hsl : 64 ≤ signatureLength) (hsig : signatureLength ≤ (signature.length : Int)) :
    ∃ ct s, PolymorphicEncrypt rand plainData n key keyLength nonce nonceLength cipherData cap
        signature signatureLength = .returned n (ct, s) ∧
      s.length = signature.length ∧
      (∀ i, 64 ≤ i → s[i]? = signature[i]?) ∧
      (∀ i, i < 16 → s[i]? = (pattern rand)[i]?) ∧
      (∀ i, 16 ≤ i → i < 64 →
        s[i]? = some ((ct.getD (i % n) 0 + key.getD (i % keyLength) 0) % 256)) := by
  obtain ⟨rc, rs, hr, _, hrsl, _, hrs⟩ := poly_spec rand plainData key nonce cipherData
    signature n keyLength nonceLength cap signatureLength (by omega) hcap (by omega) (by omega)
    hsl (by omega) hk hkl hnl0 hnl
  refine ⟨rc, rs, hr, hrsl, ?_, ?_, ?_⟩
  · intro i hi
    rw [hrs i, if_neg (by omega)]
  · intro i hi
    have hlen : i < (pattern rand).length := by
      rw [pattern_length]
      exact hi
    rw [hrs i, if_pos (by omega), if_pos hi,
      Nat.mod_eq_of_lt (getD_lt_of_isBytes (pattern_isBytes rand) i),
      List.getElem?_eq_getElem hlen, List.getD_eq_getElem _ _ hlen]
  · intro i h16 h64
    rw [hrs i, if_pos h64, if_neg (by omega)]

/-- Witness of C10: a 3-byte plaintext, a 2-byte key, a 1-byte nonce, a 4-byte
cipher buffer and a 66-byte signature buffer declared with 65 bytes. -/
theorem C10_signature_layout_witness :
    ∃ ct s, PolymorphicEncrypt (fun i => 7 * i + 3) [1, 2, 250] 3 [7, 9] 2 [200] 1
        [0, 0, 0, 77] 4 (List.replicate 66 5) 65 = .returned 3 (ct, s) ∧
      s.length = (List.replicate 66 5).length ∧
      (∀ i, 64 ≤ i → s[i]? = (List.replicate 66 5)[i]?) ∧
      (∀ i, i < 16 → s[i]? = (pattern (fun i => 7 * i + 3))[i]?) ∧
      (∀ i, 16 ≤ i → i < 64 →
        s[i]? = some ((ct.getD (i % 3) 0 + [7, 9].getD (i % 2) 0) % 256)) :=
  C10_signature_layout (fun i => 7 * i + 3) [1, 2, 250] [7, 9] [200] [0, 0, 0, 77]
    (List.replicate 66 5) 3 2 1 4 65 (by decide) (by decide) (by decide) (by decide)
    (by decide) (by decide) (by decide) (by decide) (by decide) (by decide)

/-- Counterexample to C11 as stated: a 1-byte plaintext encrypted twice with the
same key and nonce under two Patterns that differ at index 5 only gives the same
ciphertext byte 141 both times (and two different signatures). -/
theorem C11_counterexample :
    pattern (fun i => 7 * i + 3) ≠ pattern (fun i => if i = 5 then 0 else 7 * i + 3) ∧
    PolymorphicEncrypt (fun i => 7 * i + 3) [65] 1 [7] 1 [200] 1 [0, 0] 2
        (List.replicate 64 0) 64
      = .returned 1 ([141, 0], pattern (fun i => 7 * i + 3) ++ List.replicate 48 148) ∧
    PolymorphicEncrypt (fun i => if i = 5 then 0 else 7 * i + 3) [65] 1 [7] 1 [200] 1 [0, 0] 2
        (List.replicate 64 0) 64
      = .returned 1 ([141, 0],
          pattern (fun i => if i = 5 then 0 else 7 * i + 3) ++ List.replicate 48 148) := by
  decide

/-- C11 (amended): for a plaintext of length `n >= 1` that fits, `keyLength > 0`
and `nonceLength > 0`, two calls of `PolymorphicEncrypt` with the same plaintext,
key and nonce both return `n`; if they draw different Patterns their 64-byte
signatures differ; and their ciphertexts (the `n` bytes written) differ exactly
when the Patterns differ at an index below `n` (always so when `n >= 16`). -/
theorem C11_patterns_separate_outputs (rand1 rand2 : Nat → Nat)
    (plainData key nonce out1 out2 sig1 sig2 : List Nat) (n keyLength nonceLength : Nat)
    (cap1 cap2 sl1 sl2 : Int)
    (hn : 1 ≤ n) (hp : plainData.length = n) (hpb : IsBytes plainData)
    (hk : 0 < keyLength) (hkl : keyLength ≤ key.length) (hkb : IsBytes key)
    (hnl0 : 0 < nonceLength) (hnl : nonceLength ≤ nonce.length) (hnb : IsBytes nonce)
    (hcap1 : (n : Int) ≤ cap1) (hout1 : cap1 ≤ (out1.length : Int))
    (hcap2 : (n : Int) ≤ cap2) (hout2 : cap2 ≤ (out2.length : Int))
    (hsl1 : 64 ≤ sl1) (hsig1 : sl1 ≤ (sig1.length : Int))
    (hsl2 : 64 ≤ sl2) (hsig2 : sl2 ≤ (sig2.length : Int)) :
    ∃ ct1 s1 ct2 s2,
      PolymorphicEncrypt rand1 plainData n key keyLength nonce nonceLength out1 cap1 sig1 sl1
        = .returned n (ct1, s1) ∧
      PolymorphicEncrypt rand2 plainData n key keyLength nonce nonceLength out2 cap2 sig2 sl2
        = .returned n (ct2, s2) ∧
      (pattern rand1 ≠ pattern rand2 → s1.take 64 ≠ s2.take 64) ∧
      (ct1.take n ≠ ct2.take n ↔ (pattern rand1).take n ≠ (pattern rand2).take n) := by
  obtain ⟨ct1, s1, e1, _, _, hc1, hs1⟩ := poly_spec rand1 plainData key nonce out1 sig1 n
    keyLength nonceLength cap1 sl1 (by omega) hcap1 (by omega) (by omega) hsl1 (by omega) hk hkl
    hnl0 hnl
  obtain ⟨ct2, s2, e2, _, _, hc2, hs2⟩ := poly_spec rand2 plainData key nonce out2 sig2 n
    keyLength nonceLength cap2 sl2 (by omega) hcap2 (by omega) (by omega) hsl2 (by omega) hk hkl
    hnl0 hnl
  have pb1 := fun j => getD_lt_of_isBytes (pattern_isBytes rand1) j
  have pb2 := fun j => getD_lt_of_isBytes (pattern_isBytes rand2) j
  -- a ciphertext byte determines the pattern byte it was mixed with
  have byte_iff : ∀ j, j < n → (ct1[j]? = ct2[j]? ↔
      (pattern rand1).getD (j % 16) 0 = (pattern rand2).getD (j % 16) 0) := by
    intro j hj
    have kn := xor_byte_lt (getD_lt_of_isBytes hkb (j % keyLength))
      (getD_lt_of_isBytes hnb (j % nonceLength))
    rw [hc1 j, hc2 j, if_pos hj, if_pos hj, Option.some_inj,
      Nat.mod_eq_of_lt (xor_byte_lt (getD_lt_of_isBytes hpb j) (xor_byte_lt kn (pb1 _))),
      Nat.mod_eq_of_lt (xor_byte_lt (getD_lt_of_isBytes hpb j) (xor_byte_lt kn (pb2 _))),
      Nat.xor_right_inj, Nat.xor_right_inj]
  refine ⟨ct1, s1, ct2, s2, e1, e2, ?_, ?_⟩
  · intro hne heq
    apply hne
    apply pattern_ext
    intro j hj
    have h64 : j < 64 := by omega
    have h := (take_eq_take_iff s1 s2 64).mp heq j h64
    rw [hs1 j, hs2 j, if_pos h64, if_pos h64, if_pos hj, if_pos hj,
      Option.some_inj, Nat.mod_eq_of_lt (pb1 j), Nat.mod_eq_of_lt (pb2 j)] at h
    exact h
  · apply not_congr
    rw [take_eq_take_iff, take_eq_take_iff]
    constructor
    · intro h j hj
      by_cases h16 : j < 16
      · have := (byte_iff j hj).mp (h j hj)
        rw [Nat.mod_eq_of_lt h16] at this
        rw [pattern_getElem? rand1 j h16, pattern_getElem? rand2 j h16, this]
      · rw [List.getElem?_eq_none (by rw [pattern_length]; omega),
          List.getElem?_eq_none (by rw [pattern_length]; omega)]
    · intro h j hj
      have hm : j % 16 < n := lt_of_le_of_lt (Nat.mod_le j 16) hj
      exact (byte_iff j hj).mpr (getD_eq_of_getElem?_eq (h (j % 16) hm))

/-- Witness of C11 (amended): a 3-byte plaintext, a 2-byte key, a 1-byte nonce
and two random streams. -/
theorem C11_patterns_separate_outputs_witness :
    ∃ ct1 s1 ct2 s2,
      PolymorphicEncrypt (fun i => 7 * i + 3) [1, 2, 250] 3 [7, 9] 2 [200] 1 [0, 0, 0, 77] 4
        (List.replicate 64 0) 64 = .returned 3 (ct1, s1) ∧
      PolymorphicEncrypt (fun i => 5 * i) [1, 2, 250] 3 [7, 9] 2 [200] 1 [0, 0, 0] 3
        (List.replicate 70 1) 64 = .returned 3 (ct2, s2) ∧
      (pattern (fun i => 7 * i + 3) ≠ pattern (fun i => 5 * i) → s1.take 64 ≠ s2.take 64) ∧
      (ct1.take 3 ≠ ct2.take 3 ↔
        (pattern (fun i => 7 * i + 3)).take 3 ≠ (pattern (fun i => 5 * i)).take 3) :=
  C11_patterns_separate_outputs (fun i => 7 * i + 3) (fun i => 5 * i) [1, 2, 250] [7, 9] [200]
    [0, 0, 0, 77] [0, 0, 0] (List.replicate 64 0) (List.replicate 70 1) 3 2 1 4 3 64 64
    (by decide) (by decide) (by decide) (by decide) (by decide) (by decide) (by decide)
    (by decide) (by decide) (by decide) (by decide) (by decide) (by decide) (by decide)
    (by decide) (by decide) (by decide)

/-- C12: non-overlap of the junk rewrite. For every image, the junk scan of
`ObfuscateExecutable` returns 1, and any two distinct positions at which it
matched (and rewrote six bytes) differ by at least 6. -/
theorem C12_junk_matches_do_not_overlap (data : List Nat) :
    ∃ t, ObfuscateExecutable data (data.length : Int) "junk" = .returned 1 t ∧
      ∀ i j : Int, Event.matched i ∈ t.trace → Event.matched j ∈ t.trace → i ≠ j →
        i + 6 ≤ j ∨ j + 6 ≤ i := by
  obtain ⟨t, ht, hinv, _⟩ := junk_run data
  refine ⟨t, ht, ?_⟩
  intro i j hi hj hne
  obtain ⟨m1, e1, _, _, k1⟩ := hinv.2.2.2.1 i hi
  obtain ⟨m2, e2, _, _, k2⟩ := hinv.2.2.2.1 j hj
  subst e1 e2
  have hne' : m1 ≠ m2 := fun h => hne (by rw [h])
  rcases Nat.lt_or_gt_of_ne hne' with h | h
  · have := isMarker_apart k1 k2 h
    left
    omega
  · have := isMarker_apart k2 k1 h
    right
    omega

/-- C13: bounds of the junk scan. For every image, of every length, the junk
scan of `ObfuscateExecutable` returns 1 without an access outside the image:
every index read or written lies in `[0, dataLength)`, no read is at an index
greater than `dataLength - 4`, and the image keeps its length. -/
theorem C13_junk_scan_in_bounds (data : List Nat) :
    ∃ t, ObfuscateExecutable data (data.length : Int) "junk" = .returned 1 t ∧
      t.data.length = data.length ∧
      (∀ idx, Event.read idx ∈ t.trace →
        0 ≤ idx ∧ idx < (data.length : Int) ∧ idx ≤ (data.length : Int) - 4) ∧
      (∀ idx, Event.write idx ∈ t.trace → 0 ≤ idx ∧ idx < (data.length : Int)) := by
  obtain ⟨t, ht, hinv, _⟩ := junk_run data
  refine ⟨t, ht, hinv.1, ?_, ?_⟩
  · intro idx h
    have := hinv.2.1 idx h
    omega
  · intro idx h
    have := hinv.2.2.1 idx h
    omega

/-- C14: strategy dispatch of `ObfuscateExecutable` is total and case-sensitive.
For every image, the method "junk" returns 1, the method "shuffle" returns 1
with the image unmodified, and every other string returns 0 with the image
unmodified (nothing is read or written). -/
theorem C14_strategy_dispatch (data : List Nat) (method : String) :
    (method = "junk" →
      ∃ t, ObfuscateExecutable data (data.length : Int) method = .returned 1 t) ∧
    (method = "shuffle" →
      ObfuscateExecutable data (data.length : Int) method = .returned 1 ⟨data, []⟩) ∧
    (method ≠ "junk" → method ≠ "shuffle" →
      ObfuscateExecutable data (data.length : Int) method = .returned 0 ⟨data, []⟩) := by
  refine ⟨?_, ?_, ?_⟩
  · intro hj
    obtain ⟨t, ht, _, _⟩ := junk_run data
    exact ⟨t, hj ▸ ht⟩
  · intro hs
    subst hs
    simp [ObfuscateExecutable]
  · intro hj hs
    simp [ObfuscateExecutable, hj, hs]

/-- Witness of C14: on a 13-byte image that holds four zero bytes, the methods
"Junk" and "" return 0 and "shuffle" returns 1, all three with the image
unmodified. -/
theorem C14_strategy_dispatch_witness :
    ObfuscateExecutable [0, 0, 0, 0, 1, 0, 0, 0, 0, 0, 0, 0, 0] 13 "Junk"
      = .returned 0 ⟨[0, 0, 0, 0, 1, 0, 0, 0, 0, 0, 0, 0, 0], []⟩ ∧
    ObfuscateExecutable [0, 0, 0, 0, 1, 0, 0, 0, 0, 0, 0, 0, 0] 13 ""
      = .returned 0 ⟨[0, 0, 0, 0, 1, 0, 0, 0, 0, 0, 0, 0, 0], []⟩ ∧
    ObfuscateExecutable [0, 0, 0, 0, 1, 0, 0, 0, 0, 0, 0, 0, 0] 13 "shuffle"
      = .returned 1 ⟨[0, 0, 0, 0, 1, 0, 0, 0, 0, 0, 0, 0, 0], []⟩ :=
  ⟨(C14_strategy_dispatch [0, 0, 0, 0, 1, 0, 0, 0, 0, 0, 0, 0, 0] "Junk").2.2
      (by decide) (by decide),
    (C14_strategy_dispatch [0, 0, 0, 0, 1, 0, 0, 0, 0, 0, 0, 0, 0] "").2.2
      (by decide) (by decide),
    (C14_strategy_dispatch [0, 0, 0, 0, 1, 0, 0, 0, 0, 0, 0, 0, 0] "shuffle").2.1 rfl⟩

/-- C15: `Initialize` takes no input, has no failure mode and returns the fixed
sentinel 0x1337, which is 4919. -/
theorem C15_initialize_sentinel : Initialize = .returned 4919 () := by
  decide

/-- C17: postcondition of the junk rewrite. For every image the junk scan
returns 1; in the resulting image no position `i < dataLength - 8` starts four
zero bytes; and every byte that differs from the input lies in a six-byte span
that starts at a position where the scan matched, where the input holds four
zero bytes, and where the result reads EB 05 90 90 90 90. -/
theorem C17_junk_postcondition (data : List Nat) :
    ∃ t, ObfuscateExecutable data (data.length : Int) "junk" = .returned 1 t ∧
      (∀ i : Nat, (i : Int) < (data.length : Int) - 8 → ¬ fourZeros t.data i) ∧
      (∀ j : Nat, t.data[j]? ≠ data[j]? →
        ∃ m : Nat, m ≤ j ∧ j < m + 6 ∧ Event.matched (m : Int) ∈ t.trace ∧
          fourZeros data m ∧ isMarker t.data m) := by
  obtain ⟨t, ht, hinv, _⟩ := junk_run data
  obtain ⟨_, _, _, hmt, hch, hnz⟩ := hinv
  refine ⟨t, ht, ?_, ?_⟩
  · intro i hi
    exact hnz i (by omega)
  · intro j hne
    obtain ⟨m, hm, h1, h2⟩ := hch j hne
    obtain ⟨m', e, _, hz, hmark⟩ := hmt _ hm
    have : m' = m := by omega
    subst this
    exact ⟨m', h1, h2, hm, hz, hmark⟩

/-- C18: the junk rewrite is idempotent. For every image, the junk scan applied
to the image a junk scan produced returns 1, matches nowhere and leaves that
image unchanged. -/
theorem C18_junk_idempotent (data : List Nat) :
    ∃ t1 t2, ObfuscateExecutable data (data.length : Int) "junk" = .returned 1 t1 ∧
      ObfuscateExecutable t1.data (t1.data.length : Int) "junk" = .returned 1 t2 ∧
      t2.data = t1.data ∧ ∀ idx, Event.matched idx ∉ t2.trace := by
  obtain ⟨t1, h1, inv1, _⟩ := junk_run data
  obtain ⟨t2, h2, inv2, _⟩ := junk_run t1.data
  have hlen : t1.data.length = data.length := inv1.1
  have hnone : ∀ idx, Event.matched idx ∉ t2.trace := by
    intro idx hmem
    obtain ⟨m, _, hlt, hz, _⟩ := inv2.2.2.2.1 idx hmem
    exact inv1.2.2.2.2.2 m (by omega) hz
  refine ⟨t1, t2, h1, h2, ?_, hnone⟩
  apply List.ext_getElem?
  intro j
  by_contra hne
  obtain ⟨m, hm, _, _⟩ := inv2.2.2.2.2.1 j hne
  exact hnone _ hm

/-- C16: the junk scan moves past a rewritten span without matching in it. For
every image, `ObfuscateExecutable` with "junk" returns 1 and produces the image
of the reference scan that, bounded by `i < dataLength - 8` like the source,
resumes at position `i + 6` after rewriting at a match at `i`; this holds for
every fuel of the reference scan of at least `dataLength - 8` positions. -/
theorem C16_junk_refines_skipping_scan (data : List Nat) (fuel : Nat)
    (hfuel : data.length - 8 ≤ fuel) :
    ∃ t, ObfuscateExecutable data (data.length : Int) "junk" = .returned 1 t ∧
      t.data = referenceJunkScan (data.length : Int) fuel 0 data := by
  obtain ⟨t, ht, _, hdata⟩ := junk_run data
  refine ⟨t, ht, ?_⟩
  rw [hdata, referenceJunkScan_eq_junkScan (data.length : Int) (data.length - 8)
    (fun i => by omega) fuel 0 data (by omega) le_rfl]
  rfl

/-- Witness of C16: an image of twenty zero bytes, scanned with fuel 12. -/
theorem C16_junk_refines_skipping_scan_witness :
    ∃ t, ObfuscateExecutable (List.replicate 20 0) ((List.replicate 20 0).length : Int) "junk"
        = .returned 1 t ∧
      t.data = referenceJunkScan ((List.replicate 20 0).length : Int) 12 0
        (List.replicate 20 0) :=
  C16_junk_refines_skipping_scan (List.replicate 20 0) 12 (by decide)

/-- C19: `HashData` ignores all input beyond the digest size. For a supported
algorithm of digest size `size` and two inputs that are both at least `size`
bytes long and agree on their first `size` bytes, both calls return `size` and
write the same `size` digest bytes. -/
theorem C19_hash_ignores_tail (data1 data2 h1 h2 : List Nat) (n1 n2 : Nat)
    (algorithm : String) (size : Nat) (cap1 cap2 : Int)
    (halg : (algorithm, size) ∈ digestSizes)
    (hl1 : data1.length = n1) (hl2 : data2.length = n2)
    (hn1 : size ≤ n1) (hn2 : size ≤ n2) (hagree : data1.take size = data2.take size)
    (hcap1 : (size : Int) ≤ cap1) (hout1 : cap1 ≤ (h1.length : Int))
    (hcap2 : (size : Int) ≤ cap2) (hout2 : cap2 ≤ (h2.length : Int)) :
    ∃ r1 r2, HashData data1 n1 algorithm h1 cap1 = .returned size r1 ∧
      HashData data2 n2 algorithm h2 cap2 = .returned size r2 ∧
      r1.take size = r2.take size := by
  have hs1 : size ≤ h1.length := by omega
  have hs2 : size ≤ h2.length := by omega
  simp only [digestSizes, List.mem_cons, Prod.mk.injEq, List.mem_singleton, List.not_mem_nil,
    or_false] at halg
  rcases halg with ⟨rfl, rfl⟩ | ⟨rfl, rfl⟩ | ⟨rfl, rfl⟩ | ⟨rfl, rfl⟩
  · have e1 : cap1 ≥ 16 := by omega
    have e2 : cap2 ≥ 16 := by omega
    simpa [HashData, e1, e2] using
      hashBranch_prefix (fun i => i) 16 data1 data2 n1 n2 (by decide) hn1 hn2 (by omega)
        (by omega) hagree h1 h2 hs1 hs2
  · have e1 : cap1 ≥ 20 := by omega
    have e2 : cap2 ≥ 20 := by omega
    simpa [HashData, e1, e2] using
      hashBranch_prefix (fun i => i * 2) 20 data1 data2 n1 n2 (by decide) hn1 hn2 (by omega)
        (by omega) hagree h1 h2 hs1 hs2
  · have e1 : cap1 ≥ 32 := by omega
    have e2 : cap2 ≥ 32 := by omega
    simpa [HashData, e1, e2] using
      hashBranch_prefix (fun i => i * 3) 32 data1 data2 n1 n2 (by decide) hn1 hn2 (by omega)
        (by omega) hagree h1 h2 hs1 hs2
  · have e1 : cap1 ≥ 64 := by omega
    have e2 : cap2 ≥ 64 := by omega
    simpa [HashData, e1, e2] using
      hashBranch_prefix (fun i => i * 5) 64 data1 data2 n1 n2 (by decide) hn1 hn2 (by omega)
        (by omega) hagree h1 h2 hs1 hs2

/-- Witness of C19: MD5 of the 16 bytes 0..15 followed by 99, and of the same 16
bytes followed by 1, 2, 3. -/
theorem C19_hash_ignores_tail_witness :
    ∃ r1 r2,
      HashData (List.range 16 ++ [99]) 17 "MD5" (List.replicate 16 0) 16 = .returned 16 r1 ∧
      HashData (List.range 16 ++ [1, 2, 3]) 19 "MD5" (List.replicate 20 7) 20
        = .returned 16 r2 ∧
      r1.take 16 = r2.take 16 :=
  C19_hash_ignores_tail (List.range 16 ++ [99]) (List.range 16 ++ [1, 2, 3])
    (List.replicate 16 0) (List.replicate 20 7) 17 19 "MD5" 16 16 20 (by decide) (by decide)
    (by decide) (by decide) (by decide) (by decide) (by decide) (by decide) (by decide)
    (by decide)

/-- C20: the signature of `PolymorphicEncrypt` does not cover the whole
ciphertext. For a fixed key, nonce and random draws, two plaintexts that are
both at least 64 bytes long and agree at every index in `[16, 64)` both encrypt
successfully and get the same 64 signature bytes, while at every index where the
plaintexts differ the two ciphertexts differ. -/
theorem C20_signature_covers_16_to_64 (rand : Nat → Nat)
    (plain1 plain2 key nonce out1 out2 sig1 sig2 : List Nat) (n1 n2 keyLength nonceLength : Nat)
    (cap1 cap2 sl1 sl2 : Int)
    (hp1 : plain1.length = n1) (hp2 : plain2.length = n2)
    (hb1 : IsBytes plain1) (hb2 : IsBytes plain2)
    (hn1 : 64 ≤ n1) (hn2 : 64 ≤ n2)
    (hagree : ∀ i, 16 ≤ i → i < 64 → plain1.getD i 0 = plain2.getD i 0)
    (hk : 0 < keyLength) (hkl : keyLength ≤ key.length)
    (hnl0 : 0 < nonceLength) (hnl : nonceLength ≤ nonce.length)
    (hcap1 : (n1 : Int) ≤ cap1) (hout1 : cap1 ≤ (out1.length : Int))
    (hcap2 : (n2 : Int) ≤ cap2) (hout2 : cap2 ≤ (out2.length : Int))
    (hsl1 : 64 ≤ sl1) (hsig1 : sl1 ≤ (sig1.length : Int))
    (hsl2 : 64 ≤ sl2) (hsig2 : sl2 ≤ (sig2.length : Int)) :
    ∃ ct1 s1 ct2 s2,
      PolymorphicEncrypt rand plain1 n1 key keyLength nonce nonceLength out1 cap1 sig1 sl1
        = .returned n1 (ct1, s1) ∧
      PolymorphicEncrypt rand plain2 n2 key keyLength nonce nonceLength out2 cap2 sig2 sl2
        = .returned n2 (ct2, s2) ∧
      s1.take 64 = s2.take 64 ∧
      (∀ i, i < n1 → i < n2 → plain1.getD i 0 ≠ plain2.getD i 0 →
        ct1.getD i 0 ≠ ct2.getD i 0) := by
  obtain ⟨ct1, s1, e1, _, _, hc1, hs1⟩ := poly_spec rand plain1 key nonce out1 sig1 n1
    keyLength nonceLength cap1 sl1 (by omega) hcap1 (by omega) (by omega) hsl1 (by omega) hk hkl
    hnl0 hnl
  obtain ⟨ct2, s2, e2, _, _, hc2, hs2⟩ := poly_spec rand plain2 key nonce out2 sig2 n2
    keyLength nonceLength cap2 sl2 (by omega) hcap2 (by omega) (by omega) hsl2 (by omega) hk hkl
    hnl0 hnl
  have g1 : ∀ j, j < n1 → ct1.getD j 0 = (plain1.getD j 0 ^^^ (key.getD (j % keyLength) 0
      ^^^ nonce.getD (j % nonceLength) 0 ^^^ (pattern rand).getD (j % 16) 0)) % 256 := by
    intro j hj
    have := hc1 j
    rw [if_pos hj] at this
    exact getD_of_getElem? this
  have g2 : ∀ j, j < n2 → ct2.getD j 0 = (plain2.getD j 0 ^^^ (key.getD (j % keyLength) 0
      ^^^ nonce.getD (j % nonceLength) 0 ^^^ (pattern rand).getD (j % 16) 0)) % 256 := by
    intro j hj
    have := hc2 j
    rw [if_pos hj] at this
    exact getD_of_getElem? this
  refine ⟨ct1, s1, ct2, s2, e1, e2, ?_, ?_⟩
  · rw [take_eq_take_iff]
    intro j hj
    rw [hs1 j, hs2 j, if_pos hj, if_pos hj]
    by_cases h16 : j < 16
    · rw [if_pos h16, if_pos h16]
    · rw [if_neg h16, if_neg h16, Nat.mod_eq_of_lt (by omega : j < n1),
        Nat.mod_eq_of_lt (by omega : j < n2), g1 j (by omega), g2 j (by omega),
        hagree j (by omega) hj]
  · intro i hi1 hi2 hne heq
    apply hne
    rw [g1 i hi1, g2 i hi2] at heq
    have a := xor_roundtrip_byte (plain1.getD i 0) (key.getD (i % keyLength) 0
      ^^^ nonce.getD (i % nonceLength) 0 ^^^ (pattern rand).getD (i % 16) 0)
      (getD_lt_of_isBytes hb1 i)
    have b := xor_roundtrip_byte (plain2.getD i 0) (key.getD (i % keyLength) 0
      ^^^ nonce.getD (i % nonceLength) 0 ^^^ (pattern rand).getD (i % 16) 0)
      (getD_lt_of_isBytes hb2 i)
    rw [← a, ← b, heq]

/-- Witness of C20: the 70 bytes 0..69 and a 64-byte plaintext that differs from
them at index 0 only. -/
theorem C20_signature_covers_16_to_64_witness :
    ∃ ct1 s1 ct2 s2,
      PolymorphicEncrypt (fun i => 7 * i + 3) (List.range 70) 70 [7, 9] 2 [200] 1
        (List.replicate 70 0) 70 (List.replicate 64 0) 64 = .returned 70 (ct1, s1) ∧
      PolymorphicEncrypt (fun i => 7 * i + 3) (200 :: (List.range 64).tail) 64 [7, 9] 2 [200] 1
        (List.replicate 64 0) 64 (List.replicate 64 0) 64 = .returned 64 (ct2, s2) ∧
      s1.take 64 = s2.take 64 ∧
      (∀ i, i < 70 → i < 64 →
        (List.range 70).getD i 0 ≠ (200 :: (List.range 64).tail).getD i 0 →
        ct1.getD i 0 ≠ ct2.getD i 0) :=
  C20_signature_covers_16_to_64 (fun i => 7 * i + 3) (List.range 70)
    (200 :: (List.range 64).tail) [7, 9] [200] (List.replicate 70 0) (List.replicate 64 0)
    (List.replicate 64 0) (List.replicate 64 0) 70 64 2 1 70 64 64 64
    (by decide) (by decide) (by decide) (by decide) (by decide) (by decide)
    (by decide) (by decide) (by decide) (by decide) (by decide) (by decide) (by decide)
    (by decide) (by decide) (by decide) (by decide) (by decide) (by decide)

end NativeCrypto
